import Mathlib

/-!
# Verification of the USDG exchange-volume tracker core

Shallow embedding of the aggregation / metrics / historical-log / depth pipeline
of the tracker server, translated from the JavaScript source:

* `DepthCalc`      — `src/server/utils/depthCalculator.js`
* `MetricsCalc`    — `src/server/utils/metricsCalculator.js`
* `Agg`            — the aggregation loop of `GET /api/aggregated`
                     (`src/server/routes/api.js`, duplicated verbatim in the
                     daily logger job's `fetchAggregatedData` and the backfill
                     script's `fetchAllHistoricalData`)
* `Backfill`       — `calculateMetricsForDate`, `getPastDates` and the backfill
                     main loop of the backfill script
* `MetricsRoutes`  — `groupByWeek` / `groupByMonth` and the weekly / monthly
                     delta computation of the metrics router
* `DepthRoute`     — the per-pair orderbook loop of `GET /api/depth`

Embedding conventions:

* JS numbers are modelled as `ℚ` (exact field arithmetic; the JS source never
  relies on floating-point rounding, NaN or Infinity behaviour in the
  properties verified here).
* `YYYY-MM-DD` calendar-date strings are modelled as `ℤ` day ordinals (days
  since the Unix epoch).  On canonical zero-padded date strings, JS string
  comparison (`<=`, `localeCompare`, `Map` key equality) agrees with the
  chronological order of the ordinals, so `≤`/`=` on `ℤ` is a faithful model.
* A JS `Date` instant is modelled as `Instant`: its UTC calendar day ordinal
  plus the second-of-day.  `toISOString().split('T')[0]` is the `day` field;
  the UTC calendar month is recovered from the ordinal by the standard
  civil-from-days conversion.
* JS `Map` objects (and plain objects used as dictionaries) are modelled as
  insertion-ordered association lists: `set`/`[k] = v` overwrites in place or
  appends (`mapSet`), `get`/`[k]` is `mapGet`.
* Code that throws is modelled with `Except`; fetches that may fail and are
  caught are modelled as `Except`-valued inputs.
-/

/-! ## Common infrastructure -/

/-- JS `Map.prototype.set` / `obj[k] = v` on an insertion-ordered association
list: overwrite an existing key in place, otherwise append at the end. -/
def mapSet {κ ν : Type} [DecidableEq κ] (m : List (κ × ν)) (k : κ) (v : ν) :
    List (κ × ν) :=
  match m with
  | [] => [(k, v)]
  | (k', v') :: rest => if k = k' then (k, v) :: rest else (k', v') :: mapSet rest k v

/-- JS `Map.prototype.get` / `obj[k]`: the value at the first (and, for maps
built with `mapSet`, only) occurrence of the key. -/
def mapGet {κ ν : Type} [DecidableEq κ] (m : List (κ × ν)) (k : κ) : Option ν :=
  match m with
  | [] => none
  | (k', v) :: rest => if k = k' then some v else mapGet rest k

/-- A UTC instant: calendar-day ordinal (days since 1970-01-01) plus
second-of-day.  `day` is exactly the `YYYY-MM-DD` part of the ISO string. -/
structure Instant where
  day : ℤ
  secs : ℕ
deriving DecidableEq, Repr

/-- Total seconds since the epoch; JS `Date` comparison (`<`, `>`) compares
this quantity. -/
def Instant.toSecs (t : Instant) : ℤ := t.day * 86400 + t.secs

/-- Civil (proleptic Gregorian) date of a day ordinal, as `(year, month, day)`
— the values JS `getUTCFullYear` / `getUTCMonth + 1` / `getUTCDate` return.
Standard days-to-civil conversion. -/
def civilOfDay (z : ℤ) : ℤ × ℤ × ℤ :=
  let z' := z + 719468
  let era := Int.fdiv z' 146097
  let doe := z' - era * 146097
  let yoe := (doe - doe / 1460 + doe / 36524 - doe / 146096) / 365
  let y := yoe + era * 400
  let doy := doe - (365 * yoe + yoe / 4 - yoe / 100)
  let mp := (5 * doy + 2) / 153
  let d := doy - (153 * mp + 2) / 5 + 1
  let m := mp + (if mp < 10 then 3 else -9)
  (if m ≤ 2 then y + 1 else y, m, d)

/-- The UTC calendar month of a day ordinal, encoded as `year * 12 + (month - 1)`.
Equality of these codes is equality of the `"YYYY-MM"` keys the JS code builds
from `getUTCFullYear()` and `getUTCMonth() + 1`. -/
def monthOfDay (z : ℤ) : ℤ :=
  let c := civilOfDay z
  c.1 * 12 + (c.2.1 - 1)

/-- JS `getUTCDay()`: 0 = Sunday … 6 = Saturday.  Day ordinal 0 (1970-01-01)
was a Thursday. -/
def dayOfWeek (d : ℤ) : ℤ := (d + 4) % 7

/-- The most recent Sunday at or before day `d`
(`date.setUTCDate(date.getUTCDate() - date.getUTCDay())` in `groupByWeek`). -/
def weekStartOfDay (d : ℤ) : ℤ := d - dayOfWeek d

/-! ## Depth / spread calculator — `src/server/utils/depthCalculator.js` -/

namespace DepthCalc

/-- `const STABLECOINS = ['USDG', 'USDT', 'USDC', 'USD', 'EUR']` -/
def STABLECOINS : List String := ["USDG", "USDT", "USDC", "USD", "EUR"]

/-- `base.replace(/^[XZ]/, '')`: drop one leading `'X'` or `'Z'` (case
sensitive, a single character, only at the start). -/
def stripXZ (s : String) : String :=
  match s.data with
  | c :: rest => if c = 'X' ∨ c = 'Z' then ⟨rest⟩ else s
  | [] => s

/-- `.toUpperCase()` (the symbols involved are ASCII). -/
def jsToUpper (s : String) : String := ⟨s.data.map Char.toUpper⟩

inductive PairType where
  | stablecoin
  | risk
deriving DecidableEq, Repr

/-- `classifyPair(base, quote)`.  Note: the body only ever inspects `base`
(`cleanBase` and `normalBase` are both derived from it); `quote` is unused. -/
def classifyPair (base quote : String) : PairType :=
  let cleanBase := jsToUpper (stripXZ base)
  let normalBase := jsToUpper base
  if normalBase ∈ STABLECOINS ∨ cleanBase ∈ STABLECOINS then
    PairType.stablecoin
  else
    PairType.risk

/-- `getBpsLevels(pairType)` -/
def getBpsLevels : PairType → List ℚ
  | PairType.stablecoin => [2, 5, 10, 100]
  | PairType.risk => [10, 25, 50, 100]

/-- The bid-side accumulation loop of `calculateDepthMetrics`: walk the list,
add `price * qty` while `price >= lowerBound`, `break` at the first violation. -/
def bidLoop (lowerBound : ℚ) : List (ℚ × ℚ) → ℚ
  | [] => 0
  | (price, qty) :: rest =>
    if lowerBound ≤ price then price * qty + bidLoop lowerBound rest else 0

/-- The ask-side accumulation loop: add while `price <= upperBound`, `break`
at the first violation. -/
def askLoop (upperBound : ℚ) : List (ℚ × ℚ) → ℚ
  | [] => 0
  | (price, qty) :: rest =>
    if price ≤ upperBound then price * qty + askLoop upperBound rest else 0

structure DepthMetrics where
  midPrice : ℚ
  spreadBps : ℚ
  bidDepth : List (ℚ × ℚ)
  askDepth : List (ℚ × ℚ)
deriving DecidableEq, Repr

/-- `calculateDepthMetrics(bids, asks, bpsLevels)`.  `bids[0][0]` /
`asks[0][0]` on an empty array throws in JS, so the empty cases are `none`;
the only caller guards both sides non-empty before calling. -/
def calculateDepthMetrics (bids asks : List (ℚ × ℚ)) (bpsLevels : List ℚ) :
    Option DepthMetrics :=
  match bids, asks with
  | (bestBid, bq) :: brest, (bestAsk, aq) :: arest =>
    let midPrice := (bestBid + bestAsk) / 2
    let spreadBps := ((bestAsk - bestBid) / midPrice) * 10000
    some
      { midPrice := midPrice
        spreadBps := spreadBps
        bidDepth := bpsLevels.map fun level =>
          (level, bidLoop (midPrice * (1 - level / 10000)) ((bestBid, bq) :: brest))
        askDepth := bpsLevels.map fun level =>
          (level, askLoop (midPrice * (1 + level / 10000)) ((bestAsk, aq) :: arest)) }
  | _, _ => none

end DepthCalc

/-! ## Metrics calculator — `src/server/utils/metricsCalculator.js` -/

namespace MetricsCalc

/-- One entry of the unified daily series: `{ date, volume, byExchange }`. -/
structure DayPoint where
  date : ℤ
  volume : ℚ
  byExchange : List (String × ℚ)
deriving DecidableEq, Repr

/-- JS `arr.slice(-n)` for `n ≥ 1`: the last `n` elements (the whole array if
it is shorter).  Every call site uses `n = 7` or `n = 30`. -/
def jsSliceLast {α : Type} (n : ℕ) (l : List α) : List α := l.drop (l.length - n)

/-- `day.byExchange?.[exchange] || 0`. -/
def byExchangeGet (day : DayPoint) (exchange : String) : ℚ :=
  (mapGet day.byExchange exchange).getD 0

/-- `calculateNDayVolume(dailyVolume, days)`. -/
def calculateNDayVolume (dailyVolume : List DayPoint) (days : ℕ) : ℚ :=
  ((jsSliceLast days dailyVolume).map fun day => day.volume).sum

/-- `countActiveExchanges(dailyVolume, exchanges)`. -/
def countActiveExchanges (dailyVolume : List DayPoint) (exchanges : List String) : ℕ :=
  (exchanges.filter fun exchange =>
    decide (0 < ((jsSliceLast 30 dailyVolume).map fun day => byExchangeGet day exchange).sum)).length

/-- `countTotalPairs(pairsByExchange)`: `Object.values(pairsByExchange).flat().length`. -/
def countTotalPairs (pairsByExchange : List (String × List String)) : ℕ :=
  ((pairsByExchange.map fun kv => kv.2).flatten).length

/-- `calculateExchangeAverages(dailyVolume, exchanges)`: for each exchange,
`last30Days.length > 0 ? totalVolume / 30 : 0` — the divisor is the constant
30 whenever the series is non-empty. -/
def calculateExchangeAverages (dailyVolume : List DayPoint) (exchanges : List String) :
    List (String × ℚ) :=
  let last30Days := jsSliceLast 30 dailyVolume
  exchanges.foldl (fun averages exchange =>
    let totalVolume := (last30Days.map fun day => byExchangeGet day exchange).sum
    mapSet averages exchange (if 0 < last30Days.length then totalVolume / 30 else 0)) []

structure ExchangeThresholds where
  t1Mto5M : ℕ
  t5Mto25M : ℕ
  over25M : ℕ
deriving DecidableEq, Repr

/-- `countExchangesByThreshold(exchangeAverages)`. -/
def countExchangesByThreshold (exchangeAverages : List (String × ℚ)) : ExchangeThresholds :=
  let values : List ℚ := exchangeAverages.map fun kv => kv.2
  { t1Mto5M := (values.filter fun avg => decide (1000000 ≤ avg ∧ avg < 5000000)).length
    t5Mto25M := (values.filter fun avg => decide (5000000 ≤ avg ∧ avg < 25000000)).length
    over25M := (values.filter fun avg => decide (25000000 ≤ avg)).length }

structure MetricsSnapshot where
  volume7Day : ℚ
  volume30Day : ℚ
  activeExchanges : ℕ
  totalPairs : ℕ
  exchangeThresholds : ExchangeThresholds
deriving DecidableEq, Repr

/-- The argument record of `calculateAllMetrics` (shape of the
`/api/aggregated` payload). -/
structure AggregatedData where
  dailyVolume : List DayPoint
  exchanges : List String
  pairsByExchange : List (String × List String)
deriving Repr

/-- `calculateAllMetrics(aggregatedData)`. -/
def calculateAllMetrics (aggregatedData : AggregatedData) : MetricsSnapshot :=
  { volume7Day := calculateNDayVolume aggregatedData.dailyVolume 7
    volume30Day := calculateNDayVolume aggregatedData.dailyVolume 30
    activeExchanges := countActiveExchanges aggregatedData.dailyVolume aggregatedData.exchanges
    totalPairs := countTotalPairs aggregatedData.pairsByExchange
    exchangeThresholds := countExchangesByThreshold
      (calculateExchangeAverages aggregatedData.dailyVolume aggregatedData.exchanges) }

end MetricsCalc

/-! ## Volume aggregator — `GET /api/aggregated` in `src/server/routes/api.js`
(the identical loop also appears in the daily logger job and the backfill
script) -/

namespace Agg

/-- The normalized per-exchange result `{ exchange, pairs, dailyVolume }`
(a failed fetch is caught and replaced by `{ exchange, pairs: [], dailyVolume: [] }`
before reaching this loop, so every element has this shape). -/
structure ExchangeSeries where
  exchange : String
  pairs : List String
  dailyVolume : List (ℤ × ℚ)
deriving DecidableEq, Repr

/-- A `volumeByDate` map value: `{ volume, byExchange }`. -/
structure DateAcc where
  volume : ℚ
  byExchange : List (String × ℚ)
deriving DecidableEq, Repr

/-- `volumeByDate.get(day.date) || { volume: 0, byExchange: {} }` followed by
`existing.volume += day.volume; existing.byExchange[exchangeName] = day.volume;
volumeByDate.set(day.date, existing)`. -/
def addDay (volumeByDate : List (ℤ × DateAcc)) (exchangeName : String) (day : ℤ × ℚ) :
    List (ℤ × DateAcc) :=
  let existing := (mapGet volumeByDate day.1).getD ⟨0, []⟩
  mapSet volumeByDate day.1
    ⟨existing.volume + day.2, mapSet existing.byExchange exchangeName day.2⟩

/-- The nested `for (const exchangeData of results) { for (const day of
exchangeData.dailyVolume) { … } }` accumulation. -/
def combineVolumes (results : List ExchangeSeries) : List (ℤ × DateAcc) :=
  results.foldl (fun volumeByDate exchangeData =>
    exchangeData.dailyVolume.foldl
      (fun m day => addDay m exchangeData.exchange day) volumeByDate) []

/-- The per-date view of one `addDay` step (how the accumulator entry of a
single date evolves); used by the invariant proofs below. -/
def dateStep (o : Option DateAcc) (t : String × (ℤ × ℚ)) : Option DateAcc :=
  some ⟨(o.getD ⟨0, []⟩).volume + t.2.2, mapSet (o.getD ⟨0, []⟩).byExchange t.1 t.2.2⟩

structure DailyVolumePoint where
  date : ℤ
  volume : ℚ
  byExchange : List (String × ℚ)
deriving DecidableEq, Repr

/-- `Array.from(volumeByDate.entries()).map(([date, data]) => …)
.sort((a, b) => a.date.localeCompare(b.date))`. -/
def aggregatedDailyVolume (results : List ExchangeSeries) : List DailyVolumePoint :=
  List.insertionSort (fun a b => a.date ≤ b.date)
    ((combineVolumes results).map fun kv => ⟨kv.1, kv.2.volume, kv.2.byExchange⟩)

/-- `pairsByExchange[exchangeName] = exchangeData.pairs` over all results. -/
def pairsByExchange (results : List ExchangeSeries) : List (String × List String) :=
  results.foldl (fun m s => mapSet m s.exchange s.pairs) []

end Agg

/-! ## Backfill script — `scripts/backfillMetrics.js` -/

namespace Backfill

/-- `const EXCHANGES = ['kraken', 'bullish', 'gate', 'kucoin', 'bitmart', 'okx']` -/
def EXCHANGES : List String := ["kraken", "bullish", "gate", "kucoin", "bitmart", "okx"]

/-- `calculateMetricsForDate(targetDate, dailyVolume, pairsByExchange)`.

The function filters `dailyVolume` to `date <= targetDate`, returns `null`
when nothing is left, and otherwise computes `volume7Day`, a per-exchange
average with divisor `Math.min(30, last30Days.length)` (see
`exchangeAveragesForDate` below), `activeExchanges`, `totalPairs` and
`exchangeThresholds` — but its `return` object uses the shorthand property
`volume30Day`, an identifier declared nowhere in the function or module, so
evaluating the return statement throws a `ReferenceError`. -/
def calculateMetricsForDate (targetDate : ℤ) (dailyVolume : List MetricsCalc.DayPoint)
    (pairsByExchange : List (String × List String)) :
    Except String (Option MetricsCalc.MetricsSnapshot) :=
  let dataUpToDate := dailyVolume.filter fun d => decide (d.date ≤ targetDate)
  if dataUpToDate.length = 0 then
    Except.ok none
  else
    Except.error "ReferenceError: volume30Day is not defined"

/-- The `exchangeAverages` object that `calculateMetricsForDate` builds before
reaching its failing `return`: note the divisor
`Math.min(30, last30Days.length)`, unlike the constant 30 of the live
`calculateExchangeAverages`. -/
def exchangeAveragesForDate (targetDate : ℤ) (dailyVolume : List MetricsCalc.DayPoint) :
    List (String × ℚ) :=
  let dataUpToDate := dailyVolume.filter fun d => decide (d.date ≤ targetDate)
  let last30Days := MetricsCalc.jsSliceLast 30 dataUpToDate
  EXCHANGES.foldl (fun averages exchange =>
    let totalVolume := (last30Days.map fun day => MetricsCalc.byExchangeGet day exchange).sum
    mapSet averages exchange
      (if 0 < last30Days.length then totalVolume / ((min 30 last30Days.length : ℕ) : ℚ) else 0)) []

/-- The `exchangeThresholds` object `calculateMetricsForDate` builds from
those averages (same bucketing as the live calculator). -/
def thresholdsForDate (targetDate : ℤ) (dailyVolume : List MetricsCalc.DayPoint) :
    MetricsCalc.ExchangeThresholds :=
  MetricsCalc.countExchangesByThreshold (exchangeAveragesForDate targetDate dailyVolume)

end Backfill

/-! ## Metrics routes — `src/server/routes/metrics.js` -/

namespace MetricsRoutes

/-- One parseable line of `weekly-metrics.jsonl`:
`{ timestamp, metrics }`.  (`readMetricsLog` skips malformed lines, so the
log is modelled as the list of its parseable entries.) -/
structure LogEntry where
  timestamp : Instant
  metrics : MetricsCalc.MetricsSnapshot
deriving DecidableEq, Repr

/-- A weekly summary row: `{ weekStart, weekEnd, ...entry }`. -/
structure WeekRow where
  weekStart : ℤ
  weekEnd : ℤ
  timestamp : Instant
  metrics : MetricsCalc.MetricsSnapshot
deriving DecidableEq, Repr

/-- The row `groupByWeek` stores for an entry:
`{ weekStart, weekEnd: weekStart + 6 days, ...entry }`. -/
def weekRowOf (entry : LogEntry) : WeekRow :=
  let ws := weekStartOfDay entry.timestamp.day
  ⟨ws, ws + 6, entry.timestamp, entry.metrics⟩

/-- The `weekMap` accumulation of `groupByWeek`: keep the latest entry per
week key (`!weekMap.has(weekKey) || entry.timestamp > existing.timestamp`). -/
def groupByWeekMap (entries : List LogEntry) : List (ℤ × WeekRow) :=
  entries.foldl (fun weekMap entry =>
    let weekKey := weekStartOfDay entry.timestamp.day
    match mapGet weekMap weekKey with
    | none => mapSet weekMap weekKey (weekRowOf entry)
    | some existing =>
      if existing.timestamp.toSecs < entry.timestamp.toSecs then
        mapSet weekMap weekKey (weekRowOf entry)
      else weekMap) []

/-- `groupByWeek(entries)`: map values sorted ascending by `weekStart`.
Note: no clock is consulted — the function has no notion of a current week. -/
def groupByWeek (entries : List LogEntry) : List WeekRow :=
  List.insertionSort (fun a b => a.weekStart ≤ b.weekStart)
    ((groupByWeekMap entries).map fun kv => kv.2)

/-- A monthly summary row: `{ month, ...entry }`. -/
structure MonthRow where
  month : ℤ
  timestamp : Instant
  metrics : MetricsCalc.MetricsSnapshot
deriving DecidableEq, Repr

/-- The `monthMap` accumulation of `groupByMonth`: entries of the current
month (relative to `now`, read freshly per call) are skipped; otherwise the
latest entry per month key wins. -/
def groupByMonthMap (now : Instant) (entries : List LogEntry) : List (ℤ × MonthRow) :=
  let currentMonth := monthOfDay now.day
  entries.foldl (fun monthMap entry =>
    let monthKey := monthOfDay entry.timestamp.day
    if monthKey = currentMonth then
      monthMap
    else
      match mapGet monthMap monthKey with
      | none => mapSet monthMap monthKey ⟨monthKey, entry.timestamp, entry.metrics⟩
      | some existing =>
        if existing.timestamp.toSecs < entry.timestamp.toSecs then
          mapSet monthMap monthKey ⟨monthKey, entry.timestamp, entry.metrics⟩
        else monthMap) []

/-- `groupByMonth(entries)` (with the `new Date()` read modelled as the
explicit parameter `now`): map values sorted ascending by month key. -/
def groupByMonth (now : Instant) (entries : List LogEntry) : List MonthRow :=
  List.insertionSort (fun a b => a.month ≤ b.month)
    ((groupByMonthMap now entries).map fun kv => kv.2)

/-- A volume delta block: `{ current, previous, change, percentChange }`. -/
structure VolumeDelta where
  current : ℚ
  previous : ℚ
  change : ℚ
  percentChange : ℚ
deriving DecidableEq, Repr

/-- An integer-metric delta block: `{ current, previous, change }`. -/
structure CountDelta where
  current : ℕ
  previous : ℕ
  change : ℤ
deriving DecidableEq, Repr

structure Changes where
  volume : VolumeDelta
  activeExchanges : CountDelta
  totalPairs : CountDelta
  threshold1Mto5M : CountDelta
  threshold5Mto25M : CountDelta
  thresholdOver25M : CountDelta
deriving DecidableEq, Repr

def mkCountDelta (c p : ℕ) : CountDelta := ⟨c, p, (c : ℤ) - (p : ℤ)⟩

/-- The `changes` object of `GET /api/metrics/weekly`:
`percentChange: prev.volume7Day > 0 ? … : 0`. -/
def mkWeeklyChanges (curr prev : MetricsCalc.MetricsSnapshot) : Changes :=
  { volume :=
      { current := curr.volume7Day
        previous := prev.volume7Day
        change := curr.volume7Day - prev.volume7Day
        percentChange :=
          if 0 < prev.volume7Day then
            (curr.volume7Day - prev.volume7Day) / prev.volume7Day * 100
          else 0 }
    activeExchanges := mkCountDelta curr.activeExchanges prev.activeExchanges
    totalPairs := mkCountDelta curr.totalPairs prev.totalPairs
    threshold1Mto5M :=
      mkCountDelta curr.exchangeThresholds.t1Mto5M prev.exchangeThresholds.t1Mto5M
    threshold5Mto25M :=
      mkCountDelta curr.exchangeThresholds.t5Mto25M prev.exchangeThresholds.t5Mto25M
    thresholdOver25M :=
      mkCountDelta curr.exchangeThresholds.over25M prev.exchangeThresholds.over25M }

/-- The `changes` object of `GET /api/metrics/monthly`: same shape but over
`volume30Day` (the `|| 0` fallbacks are the identity on a numeric field) with
`percentChange: (prev.volume30Day || 0) > 0 ? … : 0`. -/
def mkMonthlyChanges (curr prev : MetricsCalc.MetricsSnapshot) : Changes :=
  { volume :=
      { current := curr.volume30Day
        previous := prev.volume30Day
        change := curr.volume30Day - prev.volume30Day
        percentChange :=
          if 0 < prev.volume30Day then
            (curr.volume30Day - prev.volume30Day) / prev.volume30Day * 100
          else 0 }
    activeExchanges := mkCountDelta curr.activeExchanges prev.activeExchanges
    totalPairs := mkCountDelta curr.totalPairs prev.totalPairs
    threshold1Mto5M :=
      mkCountDelta curr.exchangeThresholds.t1Mto5M prev.exchangeThresholds.t1Mto5M
    threshold5Mto25M :=
      mkCountDelta curr.exchangeThresholds.t5Mto25M prev.exchangeThresholds.t5Mto25M
    thresholdOver25M :=
      mkCountDelta curr.exchangeThresholds.over25M prev.exchangeThresholds.over25M }

/-- The weekly handler's `currentWeek = weekly[weekly.length - 1]`,
`previousWeek = weekly[weekly.length - 2]`, `changes = …` (null when fewer
than two weekly rows exist). -/
def weeklyChanges (entries : List LogEntry) : Option Changes :=
  match (groupByWeek entries).reverse with
  | currentWeek :: previousWeek :: _ =>
    some (mkWeeklyChanges currentWeek.metrics previousWeek.metrics)
  | _ => none

/-- The weekly handler's `currentWeek` selection. -/
def weeklyCurrent (entries : List LogEntry) : Option WeekRow :=
  (groupByWeek entries).getLast?

/-- The monthly handler's `changes` (null when fewer than two monthly rows
exist). -/
def monthlyChanges (now : Instant) (entries : List LogEntry) : Option Changes :=
  match (groupByMonth now entries).reverse with
  | currentMonth :: previousMonth :: _ =>
    some (mkMonthlyChanges currentMonth.metrics previousMonth.metrics)
  | _ => none

end MetricsRoutes

/-! ## Backfill main loop — `backfill(weeks)` in the backfill script -/

namespace Backfill

/-- `getPastDates(weeks)`: one target per day, `for (let i = weeks*7; i >= 1;
i--)`, each at 23:59:00 UTC, paired as (date part, timestamp); `today` is the
day ordinal of `new Date()`. -/
def getPastDates (today : ℤ) (weeks : ℕ) : List (ℤ × Instant) :=
  (List.range (weeks * 7)).map fun j =>
    let i : ℕ := weeks * 7 - j
    ((today - (i : ℤ)), ⟨today - (i : ℤ), 23 * 3600 + 59 * 60⟩)

/-- The `existingTimestamps` set: the date part (`timestamp.split('T')[0]`)
of every parseable existing log entry. -/
def existingDates (log : List MetricsRoutes.LogEntry) : List ℤ :=
  log.map fun entry => entry.timestamp.day

/-- The generate-and-append loop of `backfill`, parameterized over the metrics
computation `calc` (the script calls `calculateMetricsForDate`): a date
already present is skipped before anything else happens; a `null` metrics
result is logged and skipped; an uncaught exception aborts the run (nothing
further is appended).  Returns the list of appended `LogEntry` records. -/
def backfillLoop (existing : List ℤ)
    (calcFn : ℤ → Except String (Option MetricsCalc.MetricsSnapshot)) :
    List (ℤ × Instant) → List MetricsRoutes.LogEntry
  | [] => []
  | (dateStr, timestamp) :: rest =>
    if dateStr ∈ existing then
      backfillLoop existing calcFn rest
    else
      match calcFn dateStr with
      | Except.error _ => []
      | Except.ok none => backfillLoop existing calcFn rest
      | Except.ok (some metrics) => ⟨timestamp, metrics⟩ :: backfillLoop existing calcFn rest

/-- `backfill(weeks)` run against an existing log: the entries it appends. -/
def backfillRun (log : List MetricsRoutes.LogEntry) (today : ℤ) (weeks : ℕ)
    (calcFn : ℤ → Except String (Option MetricsCalc.MetricsSnapshot)) :
    List MetricsRoutes.LogEntry :=
  backfillLoop (existingDates log) calcFn (getPastDates today weeks)

end Backfill

/-! ## Depth route — `GET /api/depth` in `src/server/routes/depth.js` -/

namespace DepthRoute

/-- A pair as the route sees it after `extractBaseQuote`: its request symbol
plus the extracted base/quote legs.  (`displayName` fallbacks are irrelevant
to the verified properties; the row is identified by `symbol`.) -/
structure PairInfo where
  symbol : String
  base : String
  quote : String
deriving DecidableEq, Repr

/-- A fetched orderbook `{ bids, asks }`. -/
structure Orderbook where
  bids : List (ℚ × ℚ)
  asks : List (ℚ × ℚ)
deriving DecidableEq, Repr

/-- One output row of the depth table. -/
structure DepthRow where
  exchange : String
  pair : String
  pairType : DepthCalc.PairType
  midPrice : ℚ
  spreadBps : ℚ
  bpsLevels : List ℚ
  bidDepth : List (ℚ × ℚ)
  askDepth : List (ℚ × ℚ)
deriving DecidableEq, Repr

/-- The per-pair loop of one exchange: a failed orderbook fetch is caught and
logged (no row); `if (!orderbook.bids.length || !orderbook.asks.length)
continue;` skips the pair before any depth computation; otherwise the pair is
classified and a row is pushed.  (The `none` branch of
`calculateDepthMetrics` is unreachable here because both sides are
non-empty.) -/
def processExchangePairs (exchangeName : String) :
    List (PairInfo × Except String Orderbook) → List DepthRow
  | [] => []
  | (_, Except.error _) :: rest => processExchangePairs exchangeName rest
  | (pair, Except.ok orderbook) :: rest =>
    if orderbook.bids.isEmpty ∨ orderbook.asks.isEmpty then
      processExchangePairs exchangeName rest
    else
      let pairType := DepthCalc.classifyPair pair.base pair.quote
      let bpsLevels := DepthCalc.getBpsLevels pairType
      match DepthCalc.calculateDepthMetrics orderbook.bids orderbook.asks bpsLevels with
      | some metrics =>
        ⟨exchangeName, pair.symbol, pairType, metrics.midPrice, metrics.spreadBps,
          bpsLevels, metrics.bidDepth, metrics.askDepth⟩ ::
          processExchangePairs exchangeName rest
      | none => processExchangePairs exchangeName rest

/-- The whole endpoint: per-exchange results concatenated
(`Promise.all` + `results.push(...exchangeResults)`), then sorted by
`(exchange, pair)` with `localeCompare` (modelled by the lexicographic
order on `String`).  The verified properties only use that sorting
permutes the rows. -/
def depthRows (exchanges : List (String × List (PairInfo × Except String Orderbook))) :
    List DepthRow :=
  List.insertionSort (fun a b => a.exchange < b.exchange ∨
      (a.exchange = b.exchange ∧ (a.pair < b.pair ∨ a.pair = b.pair)))
    (exchanges.map (fun ex => processExchangePairs ex.1 ex.2)).flatten

end DepthRoute

/-- Totality / transitivity instances for the sort relations used by the
embedded `.sort(...)` calls. -/
instance : IsTotal MetricsRoutes.WeekRow (fun a b => a.weekStart ≤ b.weekStart) :=
  ⟨fun a b => le_total a.weekStart b.weekStart⟩

instance : IsTrans MetricsRoutes.WeekRow (fun a b => a.weekStart ≤ b.weekStart) :=
  ⟨fun _ _ _ h h' => le_trans h h'⟩

instance : IsTotal MetricsRoutes.MonthRow (fun a b => a.month ≤ b.month) :=
  ⟨fun a b => le_total a.month b.month⟩

instance : IsTrans MetricsRoutes.MonthRow (fun a b => a.month ≤ b.month) :=
  ⟨fun _ _ _ h h' => le_trans h h'⟩

/-! ## Helper lemmas -/

theorem mapGet_mapSet_self {κ ν : Type} [DecidableEq κ] (m : List (κ × ν)) (k : κ) (v : ν) :
    mapGet (mapSet m k v) k = some v := by
  induction m with
  | nil => simp [mapSet, mapGet]
  | cons kv rest ih =>
    obtain ⟨k', v'⟩ := kv
    by_cases h : k = k' <;> simp [mapSet, mapGet, h, ih]

theorem mapGet_mapSet_ne {κ ν : Type} [DecidableEq κ] (m : List (κ × ν)) (k k' : κ) (v : ν)
    (h : k' ≠ k) : mapGet (mapSet m k v) k' = mapGet m k' := by
  induction m with
  | nil => simp [mapSet, mapGet, h]
  | cons kv rest ih =>
    obtain ⟨k₀, v₀⟩ := kv
    by_cases hk : k = k₀
    · subst hk
      simp [mapSet, mapGet, h]
    · by_cases hk' : k' = k₀ <;> simp [mapSet, mapGet, hk, hk', ih]

theorem mem_mapSet {κ ν : Type} [DecidableEq κ] {m : List (κ × ν)} {k : κ} {v : ν}
    {kv : κ × ν} (h : kv ∈ mapSet m k v) : kv = (k, v) ∨ kv ∈ m := by
  induction m with
  | nil => simpa [mapSet] using h
  | cons kv₀ rest ih =>
    obtain ⟨k₀, v₀⟩ := kv₀
    by_cases hk : k = k₀
    · subst hk
      rcases (by simpa [mapSet] using h : kv = (k, v) ∨ kv ∈ rest) with h' | h'
      · exact Or.inl h'
      · exact Or.inr (List.mem_cons_of_mem _ h')
    · rcases (by simpa [mapSet, hk] using h : kv = (k₀, v₀) ∨ kv ∈ mapSet rest k v) with h' | h'
      · exact Or.inr (by simp [h'])
      · rcases ih h' with h'' | h''
        · exact Or.inl h''
        · exact Or.inr (List.mem_cons_of_mem _ h'')

/-- Keys present after `mapSet`: exactly the old keys plus `k`. -/
theorem mapGet_mapSet_isSome {κ ν : Type} [DecidableEq κ] (m : List (κ × ν)) (k k' : κ) (v : ν) :
    (mapGet (mapSet m k v) k').isSome ↔ k' = k ∨ (mapGet m k').isSome := by
  by_cases h : k' = k
  · subst h
    simp [mapGet_mapSet_self]
  · simp [mapGet_mapSet_ne m k k' v h, h]

/-- A fold that `mapSet`s a key-determined value for each list element:
looking up `k` afterwards gives `f k` if `k` was in the list, and is otherwise
untouched. -/
theorem mapGet_foldl_mapSet {κ ν : Type} [DecidableEq κ] (f : κ → ν) (ks : List κ)
    (m₀ : List (κ × ν)) (k : κ) :
    mapGet (ks.foldl (fun m k' => mapSet m k' (f k')) m₀) k =
      if k ∈ ks then some (f k) else mapGet m₀ k := by
  induction ks generalizing m₀ with
  | nil => simp
  | cons k₀ rest ih =>
    by_cases hmem : k ∈ rest
    · simp [List.foldl_cons, ih, hmem]
    · by_cases hk : k = k₀
      · subst hk
        simp [List.foldl_cons, ih, hmem, mapGet_mapSet_self]
      · simp [List.foldl_cons, ih, hmem, hk, mapGet_mapSet_ne _ _ _ _ hk]

namespace DepthCalc

theorem bidLoop_eq_takeWhile (lowerBound : ℚ) (l : List (ℚ × ℚ)) :
    bidLoop lowerBound l =
      ((l.takeWhile fun pq => decide (lowerBound ≤ pq.1)).map fun pq => pq.1 * pq.2).sum := by
  induction l with
  | nil => simp [bidLoop]
  | cons pq rest ih =>
    obtain ⟨p, q⟩ := pq
    by_cases h : lowerBound ≤ p <;> simp [bidLoop, List.takeWhile_cons, h, ih]

theorem askLoop_eq_takeWhile (upperBound : ℚ) (l : List (ℚ × ℚ)) :
    askLoop upperBound l =
      ((l.takeWhile fun pq => decide (pq.1 ≤ upperBound)).map fun pq => pq.1 * pq.2).sum := by
  induction l with
  | nil => simp [askLoop]
  | cons pq rest ih =>
    obtain ⟨p, q⟩ := pq
    by_cases h : p ≤ upperBound <;> simp [askLoop, List.takeWhile_cons, h, ih]

end DepthCalc

/-! ## C3 — pair classification -/

/-- C3 counterexample: the claim says a pair is `stablecoin`-typed when
*either* leg's (stripped, upper-cased) symbol is in the stablecoin set.  On
`classifyPair("BTC", "USDT")` the quote leg `"USDT"` is in the set, yet the
classifier returns `risk`: the quote leg is never consulted. -/
theorem classifyPair_either_leg_cex :
    DepthCalc.classifyPair "BTC" "USDT" = DepthCalc.PairType.risk ∧
      DepthCalc.jsToUpper (DepthCalc.stripXZ "USDT") ∈ DepthCalc.STABLECOINS := by
  constructor
  · decide
  · decide

/-- C3 (amended): `classifyPair` returns `stablecoin` if and only if the
*base* leg's symbol — upper-cased as-is, or upper-cased after stripping a
single leading `X`/`Z` prefix character — is in the fixed stablecoin set; the
quote leg is ignored entirely; otherwise it returns `risk`. -/
theorem classifyPair_base_only (base q q' : String) :
    DepthCalc.classifyPair base q = DepthCalc.classifyPair base q' ∧
      (DepthCalc.classifyPair base q = DepthCalc.PairType.stablecoin ↔
        DepthCalc.jsToUpper base ∈ DepthCalc.STABLECOINS ∨
          DepthCalc.jsToUpper (DepthCalc.stripXZ base) ∈ DepthCalc.STABLECOINS) := by
  refine ⟨rfl, ?_⟩
  by_cases h : DepthCalc.jsToUpper base ∈ DepthCalc.STABLECOINS ∨
      DepthCalc.jsToUpper (DepthCalc.stripXZ base) ∈ DepthCalc.STABLECOINS
  · simp [DepthCalc.classifyPair, h]
  · simp [DepthCalc.classifyPair, h]

/-! ## C5 — depth metrics -/

namespace DepthCalc

/-- C5 (amended, general part): on non-empty, correctly sorted books,
`calculateDepthMetrics` returns `midPrice = (bestBid + bestAsk)/2`,
`spreadBps = (bestAsk - bestBid)/midPrice * 10000`, and for each band level
the bid depth is the `price * qty` sum over the prefix of bids with
`price >= midPrice * (1 - level/10000)` — the early-exit scan stopping at the
first violating level — with ask depth mirrored using the upper bound.
(The spec's concrete example is settled in the witness and counterexample:
at level 100 bps on bids `[[100,2],[99,1]]`, asks `[[101,3],[102,1]]`, only
the first bid level qualifies, because `99 < 99.495`.) -/
theorem calculateDepthMetrics_spec (bids asks : List (ℚ × ℚ)) (bpsLevels : List ℚ)
    (hb : bids ≠ []) (ha : asks ≠ [])
    (hsb : bids.Chain' fun a b => b.1 ≤ a.1) (hsa : asks.Chain' fun a b => a.1 ≤ b.1) :
    ∃ m, calculateDepthMetrics bids asks bpsLevels = some m ∧
      m.midPrice = ((bids.head hb).1 + (asks.head ha).1) / 2 ∧
      m.spreadBps = (((asks.head ha).1 - (bids.head hb).1) / m.midPrice) * 10000 ∧
      m.bidDepth = (bpsLevels.map fun level => (level,
        ((bids.takeWhile fun pq => decide (m.midPrice * (1 - level / 10000) ≤ pq.1)).map
          fun pq => pq.1 * pq.2).sum)) ∧
      m.askDepth = (bpsLevels.map fun level => (level,
        ((asks.takeWhile fun pq => decide (pq.1 ≤ m.midPrice * (1 + level / 10000))).map
          fun pq => pq.1 * pq.2).sum)) := by
  match bids, asks with
  | (bestBid, bq) :: brest, (bestAsk, aq) :: arest =>
    refine ⟨_, rfl, by simp, by simp, ?_, ?_⟩
    · simp only [calculateDepthMetrics, List.head_cons]
      exact List.map_congr_left fun level _ => by
        rw [bidLoop_eq_takeWhile]
    · simp only [calculateDepthMetrics, List.head_cons]
      exact List.map_congr_left fun level _ => by
        rw [askLoop_eq_takeWhile]

/-- C5 witness: the spec's example book, every hypothesis discharged at the
concrete input. -/
theorem calculateDepthMetrics_spec_witness :
    ([((100 : ℚ), (2 : ℚ)), (99, 1)] ≠ []) ∧ ([((101 : ℚ), (3 : ℚ)), (102, 1)] ≠ []) ∧
      List.Chain' (fun a b : ℚ × ℚ => b.1 ≤ a.1) [((100 : ℚ), (2 : ℚ)), (99, 1)] ∧
      List.Chain' (fun a b : ℚ × ℚ => a.1 ≤ b.1) [((101 : ℚ), (3 : ℚ)), (102, 1)] ∧
      (∃ m, calculateDepthMetrics [((100 : ℚ), (2 : ℚ)), (99, 1)]
          [((101 : ℚ), (3 : ℚ)), (102, 1)] [100] = some m ∧
        m.midPrice = ((100 : ℚ) + 101) / 2 ∧
        m.spreadBps = (((101 : ℚ) - 100) / m.midPrice) * 10000 ∧
        m.bidDepth = ([(100 : ℚ)].map fun level => (level,
          (([((100 : ℚ), (2 : ℚ)), (99, 1)].takeWhile fun pq =>
              decide (m.midPrice * (1 - level / 10000) ≤ pq.1)).map
            fun pq => pq.1 * pq.2).sum)) ∧
        m.askDepth = ([(100 : ℚ)].map fun level => (level,
          (([((101 : ℚ), (3 : ℚ)), (102, 1)].takeWhile fun pq =>
              decide (pq.1 ≤ m.midPrice * (1 + level / 10000))).map
            fun pq => pq.1 * pq.2).sum))) := by
  refine ⟨by simp, by simp, by norm_num [List.chain'_cons], by norm_num [List.chain'_cons], ?_⟩
  exact calculateDepthMetrics_spec _ _ _ (by simp) (by simp)
    (by norm_num [List.chain'_cons]) (by norm_num [List.chain'_cons])

/-- C5 counterexample: on the spec's example book the bid depth at 100 bps
is `100·2 = 200` — the second bid level `[99, 1]` is *excluded* (its price
`99` is below the lower bound `100.5 · 0.99 = 99.495`), contradicting the
claim that both bid levels are included (which would give `299`). -/
theorem calculateDepthMetrics_example_cex :
    calculateDepthMetrics [((100 : ℚ), (2 : ℚ)), (99, 1)] [((101 : ℚ), (3 : ℚ)), (102, 1)]
        [100] =
      some ⟨201 / 2, 20000 / 201, [(100, 200)], [(100, 303)]⟩ ∧
      ((200 : ℚ) ≠ 100 * 2 + 99 * 1) := by
  constructor
  · norm_num [calculateDepthMetrics, bidLoop, askLoop]
  · norm_num

end DepthCalc

/-! ## C4 — per-exchange 30-day average divisor -/

namespace MetricsCalc

/-- C4: for every daily series and exchange roster, the average
`calculateExchangeAverages` stores for a roster exchange is exactly
`sum(byExchange[exchange] over the last 30 entries) / 30` — the divisor is
the constant 30 even when fewer than 30 entries exist (with an empty series
the stored 0 still equals `0 / 30`). -/
theorem calculateExchangeAverages_divisor_30 (dailyVolume : List DayPoint)
    (exchanges : List String) (exchange : String) (hex : exchange ∈ exchanges) :
    mapGet (calculateExchangeAverages dailyVolume exchanges) exchange =
      some ((((jsSliceLast 30 dailyVolume).map fun day => byExchangeGet day exchange).sum) / 30) := by
  have h := mapGet_foldl_mapSet
    (fun ex => if 0 < (jsSliceLast 30 dailyVolume).length then
      ((jsSliceLast 30 dailyVolume).map fun day => byExchangeGet day ex).sum / 30 else 0)
    exchanges [] exchange
  simp only [calculateExchangeAverages]
  rw [h, if_pos hex]
  by_cases hlen : 0 < (jsSliceLast 30 dailyVolume).length
  · simp [hlen]
  · have hnil : jsSliceLast 30 dailyVolume = [] := by
      cases hsl : jsSliceLast 30 dailyVolume with
      | nil => rfl
      | cons a t => rw [hsl] at hlen; simp at hlen
    simp [hlen, hnil]

/-- C4 witness: a one-entry series (fewer than 30 entries) — the stored
average is the 30-divisor value `2000000 / 30`, not `2000000 / 1`. -/
theorem calculateExchangeAverages_divisor_30_witness :
    ("kraken" ∈ ["kraken"]) ∧
      mapGet (calculateExchangeAverages [⟨0, 2000000, [("kraken", 2000000)]⟩] ["kraken"]) "kraken" =
        some ((((jsSliceLast 30 [(⟨0, 2000000, [("kraken", 2000000)]⟩ : DayPoint)]).map
          fun day => byExchangeGet day "kraken").sum) / 30) :=
  ⟨by simp, calculateExchangeAverages_divisor_30 _ _ _ (by simp)⟩

end MetricsCalc

/-! ## C2 — backfill vs live metrics -/

/-- C2: the backfill recomputation does not coincide with the live
calculation restricted to `date <= target`.  At target date 4 on the
one-entry unified series `[{date 0, volume 2000000, byExchange {kraken:
2000000}}]`: (1) `calculateMetricsForDate` throws — its return object reads
the never-declared `volume30Day` — so backfill produces no snapshot at all;
(2) the live `calculateAllMetrics` on the restricted series returns a full
snapshot (7-day and 30-day volume 2000000, 1 active exchange, all threshold
buckets empty, since 2000000/30 < 1M); and (3) even the averages backfill
computes before the failing return divide by `Math.min(30, 1) = 1`, putting
kraken in the 1M-5M bucket — so the two computations also disagree on
`exchangeThresholds`. -/
theorem backfill_metrics_diverge_cex :
    Backfill.calculateMetricsForDate 4 [⟨0, 2000000, [("kraken", 2000000)]⟩] [] =
        Except.error "ReferenceError: volume30Day is not defined" ∧
      MetricsCalc.calculateAllMetrics
          ⟨[(⟨0, 2000000, [("kraken", 2000000)]⟩ : MetricsCalc.DayPoint)].filter
              (fun d => decide (d.date ≤ 4)),
            Backfill.EXCHANGES, []⟩ =
        ⟨2000000, 2000000, 1, 0, ⟨0, 0, 0⟩⟩ ∧
      Backfill.thresholdsForDate 4 [⟨0, 2000000, [("kraken", 2000000)]⟩] = ⟨1, 0, 0⟩ := by
  refine ⟨?_, ?_, ?_⟩
  · rfl
  · simp [MetricsCalc.calculateAllMetrics, MetricsCalc.calculateNDayVolume,
      MetricsCalc.countActiveExchanges, MetricsCalc.countTotalPairs,
      MetricsCalc.calculateExchangeAverages, MetricsCalc.countExchangesByThreshold,
      MetricsCalc.jsSliceLast, MetricsCalc.byExchangeGet, Backfill.EXCHANGES,
      mapSet, mapGet, List.filter_cons, decide_eq_true_eq]
    norm_num
  · simp [Backfill.thresholdsForDate, Backfill.exchangeAveragesForDate,
      MetricsCalc.countExchangesByThreshold, MetricsCalc.jsSliceLast,
      MetricsCalc.byExchangeGet, Backfill.EXCHANGES, mapSet, mapGet,
      List.filter_cons, decide_eq_true_eq]
    norm_num

/-! ## C8 — period deltas -/

namespace MetricsRoutes

/-- C8: in the weekly and monthly delta computation over the two most recent
period summaries, a previous-period volume of exactly 0 yields
`percentChange = 0` (the guard `prev > 0` takes the else-branch, no division
happens), and with fewer than two period summaries the `changes` output is
`none` rather than zero-filled. -/
theorem periodChanges_zero_guard_and_null (entries : List LogEntry) (now : Instant)
    (curr prev : MetricsCalc.MetricsSnapshot) :
    ((groupByWeek entries).length < 2 → weeklyChanges entries = none) ∧
      ((groupByMonth now entries).length < 2 → monthlyChanges now entries = none) ∧
      (prev.volume7Day = 0 → (mkWeeklyChanges curr prev).volume.percentChange = 0) ∧
      (prev.volume30Day = 0 → (mkMonthlyChanges curr prev).volume.percentChange = 0) := by
  refine ⟨?_, ?_, ?_, ?_⟩
  · intro h
    have hl : (groupByWeek entries).reverse.length < 2 := by simpa using h
    simp only [weeklyChanges]
    cases hrev : (groupByWeek entries).reverse with
    | nil => rfl
    | cons c t =>
      cases t with
      | nil => rfl
      | cons p r =>
        rw [hrev] at hl
        simp at hl
        omega
  · intro h
    have hl : (groupByMonth now entries).reverse.length < 2 := by simpa using h
    simp only [monthlyChanges]
    cases hrev : (groupByMonth now entries).reverse with
    | nil => rfl
    | cons c t =>
      cases t with
      | nil => rfl
      | cons p r =>
        rw [hrev] at hl
        simp at hl
        omega
  · intro h
    simp [mkWeeklyChanges, h]
  · intro h
    simp [mkMonthlyChanges, h]

/-- C8 witness: the empty log (fewer than two periods) and a pair of
snapshots whose previous volume is exactly 0. -/
theorem periodChanges_zero_guard_and_null_witness :
    weeklyChanges [] = none ∧
      monthlyChanges ⟨0, 0⟩ [] = none ∧
      (mkWeeklyChanges ⟨5, 6, 1, 2, ⟨0, 0, 0⟩⟩ ⟨0, 0, 1, 2, ⟨0, 0, 0⟩⟩).volume.percentChange = 0 ∧
      (mkMonthlyChanges ⟨5, 6, 1, 2, ⟨0, 0, 0⟩⟩ ⟨5, 0, 1, 2, ⟨0, 0, 0⟩⟩).volume.percentChange = 0 := by
  obtain ⟨h1, h2, h3, h4⟩ :=
    periodChanges_zero_guard_and_null [] ⟨0, 0⟩ ⟨5, 6, 1, 2, ⟨0, 0, 0⟩⟩ ⟨0, 0, 1, 2, ⟨0, 0, 0⟩⟩
  obtain ⟨_, _, _, h4'⟩ :=
    periodChanges_zero_guard_and_null [] ⟨0, 0⟩ ⟨5, 6, 1, 2, ⟨0, 0, 0⟩⟩ ⟨5, 0, 1, 2, ⟨0, 0, 0⟩⟩
  exact ⟨h1 (by decide), h2 (by decide), h3 rfl, h4' rfl⟩

end MetricsRoutes

/-! ## C9 — empty-book pairs are excluded -/

namespace DepthRoute

/-- Every row the per-exchange loop emits carries the exchange name and the
symbol of a successfully fetched pair whose book had both sides non-empty. -/
theorem mem_processExchangePairs (exchangeName : String)
    (pairs : List (PairInfo × Except String Orderbook)) (row : DepthRow)
    (hrow : row ∈ processExchangePairs exchangeName pairs) :
    row.exchange = exchangeName ∧
      ∃ q ob, (q, Except.ok ob) ∈ pairs ∧ row.pair = q.symbol ∧
        ¬ob.bids.isEmpty ∧ ¬ob.asks.isEmpty := by
  induction pairs with
  | nil => simp [processExchangePairs] at hrow
  | cons pob rest ih =>
    obtain ⟨q₀, r₀⟩ := pob
    cases r₀ with
    | error e =>
      rw [processExchangePairs] at hrow
      obtain ⟨hx, q, ob, hq, hp, hb, ha⟩ := ih hrow
      exact ⟨hx, q, ob, List.mem_cons_of_mem _ hq, hp, hb, ha⟩
    | ok ob₀ =>
      rw [processExchangePairs] at hrow
      by_cases hempty : ob₀.bids.isEmpty ∨ ob₀.asks.isEmpty
      · rw [if_pos hempty] at hrow
        obtain ⟨hx, q, ob, hq, hp, hb, ha⟩ := ih hrow
        exact ⟨hx, q, ob, List.mem_cons_of_mem _ hq, hp, hb, ha⟩
      · rw [if_neg hempty] at hrow
        push_neg at hempty
        dsimp only at hrow
        cases hcalc : DepthCalc.calculateDepthMetrics ob₀.bids ob₀.asks
            (DepthCalc.getBpsLevels (DepthCalc.classifyPair q₀.base q₀.quote)) with
        | some metrics =>
          rw [hcalc] at hrow
          rcases List.mem_cons.1 hrow with rfl | hrow'
          · exact ⟨rfl, q₀, ob₀, List.mem_cons_self _ _, rfl, hempty.1, hempty.2⟩
          · obtain ⟨hx, q, ob, hq, hp, hb, ha⟩ := ih hrow'
            exact ⟨hx, q, ob, List.mem_cons_of_mem _ hq, hp, hb, ha⟩
        | none =>
          rw [hcalc] at hrow
          obtain ⟨hx, q, ob, hq, hp, hb, ha⟩ := ih hrow
          exact ⟨hx, q, ob, List.mem_cons_of_mem _ hq, hp, hb, ha⟩

/-- C9: a pair whose fetched orderbook has an empty bid side or an empty ask
side produces no `DepthRow` anywhere in the depth endpoint's output — it is
skipped before any depth computation, never zero-filled.  (Symbols are
assumed unique per exchange and exchange names unique across the fan-out, as
they are for the five exchange services.) -/
theorem depthRows_excludes_empty_side
    (exchanges : List (String × List (PairInfo × Except String Orderbook)))
    (hexn : (exchanges.map fun ex => ex.1).Nodup)
    (exName : String) (pairs : List (PairInfo × Except String Orderbook))
    (hex : (exName, pairs) ∈ exchanges)
    (hsym : (pairs.map fun q => q.1.symbol).Nodup)
    (p : PairInfo) (ob : Orderbook) (hp : (p, Except.ok ob) ∈ pairs)
    (hempty : ob.bids = [] ∨ ob.asks = []) :
    ∀ row ∈ depthRows exchanges, ¬(row.exchange = exName ∧ row.pair = p.symbol) := by
  intro row hrow ⟨hrex, hrpair⟩
  have hrow' : row ∈ (exchanges.map fun ex => processExchangePairs ex.1 ex.2).flatten :=
    (List.perm_insertionSort _ _).mem_iff.1 hrow
  obtain ⟨l, hl, hrl⟩ := List.mem_flatten.1 hrow'
  obtain ⟨expair, hexpair, rfl⟩ := List.mem_map.1 hl
  obtain ⟨hx, q, ob', hq, hpq, hb, ha⟩ := mem_processExchangePairs _ _ _ hrl
  -- the exchange entry producing the row is the one named `exName`
  have hfst : expair.1 = exName := by rw [← hx, hrex]
  have hexeq : expair = (exName, pairs) :=
    List.inj_on_of_nodup_map hexn hexpair hex (by simpa using hfst)
  rw [hexeq] at hq
  -- within that exchange, the symbol identifies the pair entry
  have hsymeq : q.symbol = p.symbol := by rw [← hpq, hrpair]
  have hpair_eq : ((q, Except.ok ob') : PairInfo × Except String Orderbook) =
      (p, Except.ok ob) :=
    List.inj_on_of_nodup_map hsym hq hp (by simpa using hsymeq)
  have hob : ob' = ob := by
    have := congrArg Prod.snd hpair_eq
    simpa using this
  rw [hob] at hb ha
  rcases hempty with h | h
  · exact hb (by simp [h])
  · exact ha (by simp [h])

end DepthRoute

namespace DepthRoute

/-- C9 witness: one exchange with a single pair whose ask side is empty — the
hypotheses hold concretely and the endpoint output contains no row for the
pair. -/
theorem depthRows_excludes_empty_side_witness :
    (([("kraken", [((⟨"USDGUSD", "USDG", "USD"⟩ : PairInfo),
          (Except.ok (⟨[((1 : ℚ), (5 : ℚ))], []⟩ : Orderbook) : Except String Orderbook))])].map
        fun ex => ex.1).Nodup) ∧
      ("kraken", [((⟨"USDGUSD", "USDG", "USD"⟩ : PairInfo),
          (Except.ok (⟨[((1 : ℚ), (5 : ℚ))], []⟩ : Orderbook) : Except String Orderbook))]) ∈
        [("kraken", [((⟨"USDGUSD", "USDG", "USD"⟩ : PairInfo),
          (Except.ok (⟨[((1 : ℚ), (5 : ℚ))], []⟩ : Orderbook) : Except String Orderbook))])] ∧
      (([((⟨"USDGUSD", "USDG", "USD"⟩ : PairInfo),
          (Except.ok (⟨[((1 : ℚ), (5 : ℚ))], []⟩ : Orderbook) : Except String Orderbook))]).map
        fun q => q.1.symbol).Nodup ∧
      ((⟨"USDGUSD", "USDG", "USD"⟩ : PairInfo),
          (Except.ok (⟨[((1 : ℚ), (5 : ℚ))], []⟩ : Orderbook) : Except String Orderbook)) ∈
        [((⟨"USDGUSD", "USDG", "USD"⟩ : PairInfo),
          (Except.ok (⟨[((1 : ℚ), (5 : ℚ))], []⟩ : Orderbook) : Except String Orderbook))] ∧
      ((⟨[((1 : ℚ), (5 : ℚ))], []⟩ : Orderbook).bids = [] ∨
        (⟨[((1 : ℚ), (5 : ℚ))], []⟩ : Orderbook).asks = []) ∧
      ∀ row ∈ depthRows [("kraken", [((⟨"USDGUSD", "USDG", "USD"⟩ : PairInfo),
          (Except.ok (⟨[((1 : ℚ), (5 : ℚ))], []⟩ : Orderbook) : Except String Orderbook))])],
        ¬(row.exchange = "kraken" ∧ row.pair = "USDGUSD") := by
  refine ⟨by simp, by simp, by simp, by simp, Or.inr rfl, ?_⟩
  exact depthRows_excludes_empty_side
    [("kraken", [((⟨"USDGUSD", "USDG", "USD"⟩ : PairInfo),
      (Except.ok (⟨[((1 : ℚ), (5 : ℚ))], []⟩ : Orderbook) : Except String Orderbook))])]
    (by simp) "kraken"
    [((⟨"USDGUSD", "USDG", "USD"⟩ : PairInfo),
      (Except.ok (⟨[((1 : ℚ), (5 : ℚ))], []⟩ : Orderbook) : Except String Orderbook))]
    (by simp) (by simp) ⟨"USDGUSD", "USDG", "USD"⟩ ⟨[((1 : ℚ), (5 : ℚ))], []⟩
    (by simp) (Or.inr rfl)

end DepthRoute

/-! ## C7 — current month excluded from monthly grouping -/

namespace MetricsRoutes

/-- Invariant of the `monthMap` fold: every stored row's month key is never
the current month, and equals the month of the row's own timestamp. -/
theorem monthFold_inv (now : Instant) (entries : List LogEntry) (m₀ : List (ℤ × MonthRow))
    (h₀ : ∀ kv ∈ m₀, kv.2.month ≠ monthOfDay now.day ∧
      kv.2.month = monthOfDay kv.2.timestamp.day) :
    ∀ kv ∈ entries.foldl (fun monthMap entry =>
        if monthOfDay entry.timestamp.day = monthOfDay now.day then monthMap
        else
          match mapGet monthMap (monthOfDay entry.timestamp.day) with
          | none => mapSet monthMap (monthOfDay entry.timestamp.day)
              ⟨monthOfDay entry.timestamp.day, entry.timestamp, entry.metrics⟩
          | some existing =>
            if existing.timestamp.toSecs < entry.timestamp.toSecs then
              mapSet monthMap (monthOfDay entry.timestamp.day)
                ⟨monthOfDay entry.timestamp.day, entry.timestamp, entry.metrics⟩
            else monthMap) m₀,
      kv.2.month ≠ monthOfDay now.day ∧ kv.2.month = monthOfDay kv.2.timestamp.day := by
  induction entries generalizing m₀ with
  | nil => simpa using h₀
  | cons e rest ih =>
    intro kv hkv
    rw [List.foldl_cons] at hkv
    refine ih _ ?_ kv hkv
    intro kv' hkv'
    by_cases hcur : monthOfDay e.timestamp.day = monthOfDay now.day
    · rw [if_pos hcur] at hkv'
      exact h₀ kv' hkv'
    · rw [if_neg hcur] at hkv'
      cases hget : mapGet m₀ (monthOfDay e.timestamp.day) with
      | none =>
        rw [hget] at hkv'
        rcases mem_mapSet hkv' with rfl | h'
        · exact ⟨hcur, rfl⟩
        · exact h₀ kv' h'
      | some existing =>
        rw [hget] at hkv'
        dsimp only at hkv'
        by_cases hnewer : existing.timestamp.toSecs < e.timestamp.toSecs
        · rw [if_pos hnewer] at hkv'
          rcases mem_mapSet hkv' with rfl | h'
          · exact ⟨hcur, rfl⟩
          · exact h₀ kv' h'
        · rw [if_neg hnewer] at hkv'
          exact h₀ kv' hkv'

/-- C7: a `LogEntry` whose timestamp falls within the current UTC calendar
month — "current" read fresh from the `now` of the call — never appears in
`groupByMonth`'s output, even if it is the only entry for that month: no
output row carries the current month key, and no row's representative
timestamp lies in the current month. -/
theorem groupByMonth_excludes_current_month (now : Instant) (entries : List LogEntry) :
    ∀ row ∈ groupByMonth now entries,
      row.month ≠ monthOfDay now.day ∧ monthOfDay row.timestamp.day ≠ monthOfDay now.day := by
  intro row hrow
  have hrow' : row ∈ (groupByMonthMap now entries).map fun kv => kv.2 :=
    (List.perm_insertionSort _ _).mem_iff.1 hrow
  obtain ⟨kv, hkv, rfl⟩ := List.mem_map.1 hrow'
  have h := monthFold_inv now entries [] (by simp) kv hkv
  exact ⟨h.1, by rw [← h.2]; exact h.1⟩

/-- C7 witness: with `now` on day 100 (April 1970), the entry on day 101
shares its month and is dropped; the lone January entry survives as the only
row, whose month is not the current one. -/
theorem groupByMonth_excludes_current_month_witness :
    (⟨23640, ⟨10, 0⟩, ⟨0, 0, 0, 0, ⟨0, 0, 0⟩⟩⟩ : MonthRow) ∈
        groupByMonth ⟨100, 0⟩
          [⟨⟨10, 0⟩, ⟨0, 0, 0, 0, ⟨0, 0, 0⟩⟩⟩, ⟨⟨101, 0⟩, ⟨0, 0, 0, 0, ⟨0, 0, 0⟩⟩⟩] ∧
      ((⟨23640, ⟨10, 0⟩, ⟨0, 0, 0, 0, ⟨0, 0, 0⟩⟩⟩ : MonthRow).month ≠ monthOfDay (100 : ℤ) ∧
        monthOfDay (⟨23640, ⟨10, 0⟩, ⟨0, 0, 0, 0, ⟨0, 0, 0⟩⟩⟩ : MonthRow).timestamp.day ≠
          monthOfDay (100 : ℤ)) :=
  ⟨by decide, groupByMonth_excludes_current_month ⟨100, 0⟩
    [⟨⟨10, 0⟩, ⟨0, 0, 0, 0, ⟨0, 0, 0⟩⟩⟩, ⟨⟨101, 0⟩, ⟨0, 0, 0, 0, ⟨0, 0, 0⟩⟩⟩] _ (by decide)⟩

end MetricsRoutes

/-! ## C10 — weekly grouping has no recency cutoff -/

theorem mapGet_some_mem {κ ν : Type} [DecidableEq κ] {m : List (κ × ν)} {k : κ} {v : ν}
    (h : mapGet m k = some v) : (k, v) ∈ m := by
  induction m with
  | nil => simp [mapGet] at h
  | cons kv rest ih =>
    obtain ⟨k₀, v₀⟩ := kv
    by_cases hk : k = k₀
    · subst hk
      simp [mapGet] at h
      simp [h]
    · simp [mapGet, hk] at h
      exact List.mem_cons_of_mem _ (ih h)

/-- In a list sorted ascending by an integer key, every element's key is at
most the last element's key. -/
theorem key_le_of_sorted_getLast {α : Type} (key : α → ℤ) (l : List α)
    (hs : l.Sorted fun a b => key a ≤ key b) {x : α} (hx : x ∈ l) {y : α}
    (hy : l.getLast? = some y) : key x ≤ key y := by
  induction l with
  | nil => cases hx
  | cons a t ih =>
    cases t with
    | nil =>
      simp at hx hy
      rw [hx, hy]
    | cons b t' =>
      rw [List.getLast?_cons_cons] at hy
      rcases List.mem_cons.1 hx with rfl | hx'
      · obtain ⟨hne, rfl⟩ := List.mem_getLast?_eq_getLast hy
        exact List.rel_of_sorted_cons hs _ (List.getLast_mem hne)
      · exact ih (List.Sorted.of_cons hs) hx' hy

namespace MetricsRoutes

/-- Key-presence through the `weekMap` fold: a key present in the
accumulator, or belonging to some processed entry's week, is present in the
result (the fold only ever adds or overwrites keys). -/
theorem weekFold_presence (entries : List LogEntry) (m₀ : List (ℤ × WeekRow)) (k : ℤ)
    (h : (mapGet m₀ k).isSome ∨ ∃ e ∈ entries, weekStartOfDay e.timestamp.day = k) :
    (mapGet (entries.foldl (fun weekMap entry =>
        match mapGet weekMap (weekStartOfDay entry.timestamp.day) with
        | none => mapSet weekMap (weekStartOfDay entry.timestamp.day) (weekRowOf entry)
        | some existing =>
          if existing.timestamp.toSecs < entry.timestamp.toSecs then
            mapSet weekMap (weekStartOfDay entry.timestamp.day) (weekRowOf entry)
          else weekMap) m₀) k).isSome := by
  induction entries generalizing m₀ with
  | nil =>
    rcases h with h | h
    · simpa using h
    · simp at h
  | cons e rest ih =>
    rw [List.foldl_cons]
    apply ih
    rcases h with h | h
    · left
      cases hget : mapGet m₀ (weekStartOfDay e.timestamp.day) with
      | none =>
        dsimp only
        rw [mapGet_mapSet_isSome]
        exact Or.inr h
      | some existing =>
        dsimp only
        by_cases hnewer : existing.timestamp.toSecs < e.timestamp.toSecs
        · rw [if_pos hnewer, mapGet_mapSet_isSome]
          exact Or.inr h
        · rw [if_neg hnewer]
          exact h
    · obtain ⟨e', he', hk⟩ := h
      rcases List.mem_cons.1 he' with rfl | he''
      · left
        cases hget : mapGet m₀ (weekStartOfDay e'.timestamp.day) with
        | none =>
          dsimp only
          rw [← hk, mapGet_mapSet_isSome]
          exact Or.inl rfl
        | some existing =>
          dsimp only
          by_cases hnewer : existing.timestamp.toSecs < e'.timestamp.toSecs
          · rw [if_pos hnewer, ← hk, mapGet_mapSet_isSome]
            exact Or.inl rfl
          · rw [if_neg hnewer, ← hk, hget]
            rfl
      · exact Or.inr ⟨e', he'', hk⟩

/-- Value invariant of the `weekMap` fold: every stored row's key equals its
`weekStart`, which satisfies any predicate holding for the week of every
processed entry. -/
theorem weekFold_inv (Q : ℤ → Prop) (entries : List LogEntry)
    (hQ : ∀ e ∈ entries, Q (weekStartOfDay e.timestamp.day))
    (m₀ : List (ℤ × WeekRow))
    (h₀ : ∀ kv ∈ m₀, kv.1 = kv.2.weekStart ∧ Q kv.2.weekStart) :
    ∀ kv ∈ entries.foldl (fun weekMap entry =>
        match mapGet weekMap (weekStartOfDay entry.timestamp.day) with
        | none => mapSet weekMap (weekStartOfDay entry.timestamp.day) (weekRowOf entry)
        | some existing =>
          if existing.timestamp.toSecs < entry.timestamp.toSecs then
            mapSet weekMap (weekStartOfDay entry.timestamp.day) (weekRowOf entry)
          else weekMap) m₀,
      kv.1 = kv.2.weekStart ∧ Q kv.2.weekStart := by
  induction entries generalizing m₀ with
  | nil => simpa using h₀
  | cons e rest ih =>
    intro kv hkv
    rw [List.foldl_cons] at hkv
    refine ih (fun e' he' => hQ e' (List.mem_cons_of_mem _ he')) _ ?_ kv hkv
    intro kv' hkv'
    have hQe : Q (weekStartOfDay e.timestamp.day) := hQ e (List.mem_cons_self _ _)
    cases hget : mapGet m₀ (weekStartOfDay e.timestamp.day) with
    | none =>
      rw [hget] at hkv'
      dsimp only at hkv'
      rcases mem_mapSet hkv' with rfl | h'
      · exact ⟨rfl, hQe⟩
      · exact h₀ kv' h'
    | some existing =>
      rw [hget] at hkv'
      dsimp only at hkv'
      by_cases hnewer : existing.timestamp.toSecs < e.timestamp.toSecs
      · rw [if_pos hnewer] at hkv'
        rcases mem_mapSet hkv' with rfl | h'
        · exact ⟨rfl, hQe⟩
        · exact h₀ kv' h'
      · rw [if_neg hnewer] at hkv'
        exact h₀ kv' hkv'

/-- C10: the weekly grouping imposes no recency cutoff — there is no clock
input at all.  Every entry's week (in particular the current, still
in-progress week) is represented in `groupByWeek`'s output, and when the
entry's week is the most recent one it is exactly the handler's
`currentWeek = weekly[weekly.length - 1]` selection; only the monthly
grouping excludes the current period. -/
theorem groupByWeek_includes_current_week (entries : List LogEntry) (e : LogEntry)
    (he : e ∈ entries) :
    (∃ row ∈ groupByWeek entries, row.weekStart = weekStartOfDay e.timestamp.day) ∧
      ((∀ e' ∈ entries, weekStartOfDay e'.timestamp.day ≤ weekStartOfDay e.timestamp.day) →
        ∃ row, weeklyCurrent entries = some row ∧
          row.weekStart = weekStartOfDay e.timestamp.day) := by
  have hpres := weekFold_presence entries [] (weekStartOfDay e.timestamp.day)
    (Or.inr ⟨e, he, rfl⟩)
  obtain ⟨v, hv⟩ := Option.isSome_iff_exists.1 hpres
  have hvmem : (weekStartOfDay e.timestamp.day, v) ∈ groupByWeekMap entries :=
    mapGet_some_mem hv
  have hinv := weekFold_inv (fun k => ∃ e' ∈ entries, weekStartOfDay e'.timestamp.day = k)
    entries (fun e' he' => ⟨e', he', rfl⟩) [] (by simp) _ hvmem
  have hvrow : v ∈ (groupByWeekMap entries).map fun kv => kv.2 :=
    List.mem_map.2 ⟨_, hvmem, rfl⟩
  have hvsort : v ∈ groupByWeek entries :=
    (List.perm_insertionSort _ _).mem_iff.2 hvrow
  have hvweek : v.weekStart = weekStartOfDay e.timestamp.day := hinv.1.symm
  refine ⟨⟨v, hvsort, hvweek⟩, ?_⟩
  intro hmax
  have hne : groupByWeek entries ≠ [] := List.ne_nil_of_mem hvsort
  obtain ⟨L, hL⟩ := Option.isSome_iff_exists.1
    (by rw [List.getLast?_eq_getLast_of_ne_nil hne]; rfl :
      (groupByWeek entries).getLast?.isSome)
  refine ⟨L, hL, ?_⟩
  have hsorted : (groupByWeek entries).Sorted fun a b => a.weekStart ≤ b.weekStart :=
    List.sorted_insertionSort _ _
  have hle : v.weekStart ≤ L.weekStart :=
    key_le_of_sorted_getLast (fun r => r.weekStart) _ hsorted hvsort hL
  obtain ⟨hneL, rfl⟩ := List.mem_getLast?_eq_getLast hL
  have hLmem : (groupByWeek entries).getLast hneL ∈ groupByWeek entries := List.getLast_mem hneL
  have hLval : (groupByWeek entries).getLast hneL ∈ (groupByWeekMap entries).map fun kv => kv.2 :=
    (List.perm_insertionSort _ _).mem_iff.1 hLmem
  obtain ⟨kvL, hkvL, hkvLeq⟩ := List.mem_map.1 hLval
  have hinvL := weekFold_inv (fun k => ∃ e' ∈ entries, weekStartOfDay e'.timestamp.day = k)
    entries (fun e' he' => ⟨e', he', rfl⟩) [] (by simp) _ hkvL
  obtain ⟨e'', he'', hke''⟩ := hinvL.2
  have hgeL : ((groupByWeek entries).getLast hneL).weekStart ≤ weekStartOfDay e.timestamp.day := by
    rw [← hkvLeq, ← hke'']
    exact hmax e'' he''
  rw [← hvweek]
  omega

/-- C10 witness: two entries in different weeks; the later entry's week is
present and is selected as `currentWeek`. -/
theorem groupByWeek_includes_current_week_witness :
    ((⟨⟨7, 0⟩, ⟨0, 0, 0, 0, ⟨0, 0, 0⟩⟩⟩ : LogEntry) ∈
        [(⟨⟨0, 0⟩, ⟨0, 0, 0, 0, ⟨0, 0, 0⟩⟩⟩ : LogEntry), ⟨⟨7, 0⟩, ⟨0, 0, 0, 0, ⟨0, 0, 0⟩⟩⟩]) ∧
      (∃ row ∈ groupByWeek
          [(⟨⟨0, 0⟩, ⟨0, 0, 0, 0, ⟨0, 0, 0⟩⟩⟩ : LogEntry), ⟨⟨7, 0⟩, ⟨0, 0, 0, 0, ⟨0, 0, 0⟩⟩⟩],
        row.weekStart = weekStartOfDay ((⟨⟨7, 0⟩, ⟨0, 0, 0, 0, ⟨0, 0, 0⟩⟩⟩ : LogEntry)).timestamp.day) ∧
      (∃ row, weeklyCurrent
          [(⟨⟨0, 0⟩, ⟨0, 0, 0, 0, ⟨0, 0, 0⟩⟩⟩ : LogEntry), ⟨⟨7, 0⟩, ⟨0, 0, 0, 0, ⟨0, 0, 0⟩⟩⟩] = some row ∧
        row.weekStart = weekStartOfDay ((⟨⟨7, 0⟩, ⟨0, 0, 0, 0, ⟨0, 0, 0⟩⟩⟩ : LogEntry)).timestamp.day) := by
  obtain ⟨h1, h2⟩ := groupByWeek_includes_current_week
    [(⟨⟨0, 0⟩, ⟨0, 0, 0, 0, ⟨0, 0, 0⟩⟩⟩ : LogEntry), ⟨⟨7, 0⟩, ⟨0, 0, 0, 0, ⟨0, 0, 0⟩⟩⟩]
    ⟨⟨7, 0⟩, ⟨0, 0, 0, 0, ⟨0, 0, 0⟩⟩⟩ (by decide)
  exact ⟨by decide, h1, h2 (by decide)⟩

end MetricsRoutes

/-! ## C6 — backfill never duplicates a calendar date -/

namespace Backfill

/-- The timestamps the backfill loop appends form a subsequence of the
generated timestamps (each date is either appended once or skipped). -/
theorem backfillLoop_timestamps_sublist (existing : List ℤ)
    (calcFn : ℤ → Except String (Option MetricsCalc.MetricsSnapshot))
    (dates : List (ℤ × Instant)) :
    ((backfillLoop existing calcFn dates).map fun e => e.timestamp).Sublist
      (dates.map fun p => p.2) := by
  induction dates with
  | nil => simp [backfillLoop]
  | cons p rest ih =>
    obtain ⟨dateStr, ts⟩ := p
    rw [backfillLoop]
    by_cases hmem : dateStr ∈ existing
    · rw [if_pos hmem]
      exact ih.cons _
    · rw [if_neg hmem]
      cases hc : calcFn dateStr with
      | error err =>
        simp
      | ok o =>
        cases o with
        | none =>
          dsimp only
          exact ih.cons _
        | some metrics =>
          dsimp only
          rw [List.map_cons, List.map_cons]
          exact ih.cons₂ _

/-- Every appended entry stems from a generated date that was *not* in the
existing-date set (the skip happens before any write). -/
theorem mem_backfillLoop (existing : List ℤ)
    (calcFn : ℤ → Except String (Option MetricsCalc.MetricsSnapshot))
    (dates : List (ℤ × Instant)) :
    ∀ e ∈ backfillLoop existing calcFn dates,
      ∃ p ∈ dates, e.timestamp = p.2 ∧ p.1 ∉ existing := by
  induction dates with
  | nil => simp [backfillLoop]
  | cons p rest ih =>
    obtain ⟨dateStr, ts⟩ := p
    intro e he
    rw [backfillLoop] at he
    by_cases hmem : dateStr ∈ existing
    · rw [if_pos hmem] at he
      obtain ⟨q, hq, hts, hnot⟩ := ih e he
      exact ⟨q, List.mem_cons_of_mem _ hq, hts, hnot⟩
    · rw [if_neg hmem] at he
      cases hc : calcFn dateStr with
      | error err =>
        rw [hc] at he
        simp at he
      | ok o =>
        rw [hc] at he
        cases o with
        | none =>
          obtain ⟨q, hq, hts, hnot⟩ := ih e he
          exact ⟨q, List.mem_cons_of_mem _ hq, hts, hnot⟩
        | some metrics =>
          dsimp only at he
          rcases List.mem_cons.1 he with rfl | he'
          · exact ⟨(dateStr, ts), List.mem_cons_self _ _, rfl, hmem⟩
          · obtain ⟨q, hq, hts, hnot⟩ := ih e he'
            exact ⟨q, List.mem_cons_of_mem _ hq, hts, hnot⟩

/-- If every generated date is already present, nothing is appended. -/
theorem backfillLoop_all_skipped (existing : List ℤ)
    (calcFn : ℤ → Except String (Option MetricsCalc.MetricsSnapshot))
    (dates : List (ℤ × Instant)) (h : ∀ p ∈ dates, p.1 ∈ existing) :
    backfillLoop existing calcFn dates = [] := by
  induction dates with
  | nil => rfl
  | cons p rest ih =>
    obtain ⟨dateStr, ts⟩ := p
    rw [backfillLoop, if_pos (h _ (List.mem_cons_self _ _))]
    exact ih fun q hq => h q (List.mem_cons_of_mem _ hq)

/-- Each generated target carries its own date as the timestamp's day. -/
theorem getPastDates_day_eq (today : ℤ) (weeks : ℕ) :
    ∀ p ∈ getPastDates today weeks, p.2.day = p.1 := by
  intro p hp
  obtain ⟨j, hj, rfl⟩ := List.mem_map.1 hp
  rfl

/-- The generated target dates are pairwise distinct. -/
theorem getPastDates_days_nodup (today : ℤ) (weeks : ℕ) :
    ((getPastDates today weeks).map fun p => p.1).Nodup := by
  have heq : ((getPastDates today weeks).map fun p => p.1) =
      (List.range (weeks * 7)).map fun j => today - ((weeks * 7 - j : ℕ) : ℤ) := by
    rw [getPastDates, List.map_map]
    rfl
  rw [heq]
  refine List.Nodup.map_on ?_ (List.nodup_range _)
  intro x hx y hy hxy
  rw [List.mem_range] at hx hy
  have heq' : ((weeks * 7 - x : ℕ) : ℤ) = ((weeks * 7 - y : ℕ) : ℤ) := by omega
  have : weeks * 7 - x = weeks * 7 - y := Int.ofNat_inj.1 heq'
  omega

/-- C6: backfill never produces two log entries on the same calendar date:
the appended entries' dates avoid every date already present in the log and
are pairwise distinct (each generated date is checked against the existing
set before any write), and when every generated date is already present —
re-running over an already-populated range — nothing at all is appended.
Stated for an arbitrary metrics computation `calcFn`, covering in particular
the script's `calculateMetricsForDate`. -/
theorem backfill_no_duplicate_dates (log : List MetricsRoutes.LogEntry) (today : ℤ)
    (weeks : ℕ) (calcFn : ℤ → Except String (Option MetricsCalc.MetricsSnapshot)) :
    (∀ e ∈ backfillRun log today weeks calcFn,
        e.timestamp.day ∉ existingDates log) ∧
      ((backfillRun log today weeks calcFn).map fun e => e.timestamp.day).Nodup ∧
      ((∀ p ∈ getPastDates today weeks, p.1 ∈ existingDates log) →
        backfillRun log today weeks calcFn = []) := by
  refine ⟨?_, ?_, ?_⟩
  · intro e he
    obtain ⟨p, hp, hts, hnot⟩ := mem_backfillLoop (existingDates log) calcFn
      (getPastDates today weeks) e he
    rw [hts, getPastDates_day_eq today weeks p hp]
    exact hnot
  · have hsub := backfillLoop_timestamps_sublist (existingDates log) calcFn
      (getPastDates today weeks)
    have hsub' := hsub.map fun t => t.day
    rw [List.map_map, List.map_map] at hsub'
    have hcongr : ((getPastDates today weeks).map fun p => p.2.day) =
        ((getPastDates today weeks).map fun p => p.1) :=
      List.map_congr_left fun p hp => getPastDates_day_eq today weeks p hp
    have : ((backfillRun log today weeks calcFn).map fun e => e.timestamp.day).Sublist
        ((getPastDates today weeks).map fun p => p.1) := by
      rw [← hcongr]
      exact hsub'
    exact this.nodup (getPastDates_days_nodup today weeks)
  · exact backfillLoop_all_skipped _ _ _

/-- C6 witness: a log already holding entries for days 1–7 and a one-week
backfill from day 8 — every generated date is skipped and nothing is
appended. -/
theorem backfill_no_duplicate_dates_witness :
    (∀ p ∈ getPastDates 8 1, p.1 ∈ existingDates
        [⟨⟨1, 0⟩, ⟨0, 0, 0, 0, ⟨0, 0, 0⟩⟩⟩, ⟨⟨2, 0⟩, ⟨0, 0, 0, 0, ⟨0, 0, 0⟩⟩⟩,
          ⟨⟨3, 0⟩, ⟨0, 0, 0, 0, ⟨0, 0, 0⟩⟩⟩, ⟨⟨4, 0⟩, ⟨0, 0, 0, 0, ⟨0, 0, 0⟩⟩⟩,
          ⟨⟨5, 0⟩, ⟨0, 0, 0, 0, ⟨0, 0, 0⟩⟩⟩, ⟨⟨6, 0⟩, ⟨0, 0, 0, 0, ⟨0, 0, 0⟩⟩⟩,
          ⟨⟨7, 0⟩, ⟨0, 0, 0, 0, ⟨0, 0, 0⟩⟩⟩]) ∧
      backfillRun
        [⟨⟨1, 0⟩, ⟨0, 0, 0, 0, ⟨0, 0, 0⟩⟩⟩, ⟨⟨2, 0⟩, ⟨0, 0, 0, 0, ⟨0, 0, 0⟩⟩⟩,
          ⟨⟨3, 0⟩, ⟨0, 0, 0, 0, ⟨0, 0, 0⟩⟩⟩, ⟨⟨4, 0⟩, ⟨0, 0, 0, 0, ⟨0, 0, 0⟩⟩⟩,
          ⟨⟨5, 0⟩, ⟨0, 0, 0, 0, ⟨0, 0, 0⟩⟩⟩, ⟨⟨6, 0⟩, ⟨0, 0, 0, 0, ⟨0, 0, 0⟩⟩⟩,
          ⟨⟨7, 0⟩, ⟨0, 0, 0, 0, ⟨0, 0, 0⟩⟩⟩] 8 1
        (fun _ => Except.ok (some ⟨0, 0, 0, 0, ⟨0, 0, 0⟩⟩)) = [] := by
  refine ⟨by decide, ?_⟩
  exact (backfill_no_duplicate_dates
    [⟨⟨1, 0⟩, ⟨0, 0, 0, 0, ⟨0, 0, 0⟩⟩⟩, ⟨⟨2, 0⟩, ⟨0, 0, 0, 0, ⟨0, 0, 0⟩⟩⟩,
      ⟨⟨3, 0⟩, ⟨0, 0, 0, 0, ⟨0, 0, 0⟩⟩⟩, ⟨⟨4, 0⟩, ⟨0, 0, 0, 0, ⟨0, 0, 0⟩⟩⟩,
      ⟨⟨5, 0⟩, ⟨0, 0, 0, 0, ⟨0, 0, 0⟩⟩⟩, ⟨⟨6, 0⟩, ⟨0, 0, 0, 0, ⟨0, 0, 0⟩⟩⟩,
      ⟨⟨7, 0⟩, ⟨0, 0, 0, 0, ⟨0, 0, 0⟩⟩⟩] 8 1
    (fun _ => Except.ok (some ⟨0, 0, 0, 0, ⟨0, 0, 0⟩⟩))).2.2 (by decide)

end Backfill

/-! ## C1 — aggregator volume invariant -/

theorem mapGet_append_none {κ ν : Type} [DecidableEq κ] (b c : List (κ × ν)) (k : κ)
    (h : mapGet b k = none) : mapGet (b ++ c) k = mapGet c k := by
  induction b with
  | nil => simp
  | cons kv rest ih =>
    obtain ⟨k₀, v₀⟩ := kv
    by_cases hk : k = k₀
    · simp [mapGet, hk] at h
    · simp only [mapGet, hk, if_false, List.cons_append] at h ⊢
      simpa [mapGet, hk] using ih h

/-- Setting an absent key appends at the end. -/
theorem mapSet_eq_append {κ ν : Type} [DecidableEq κ] (m : List (κ × ν)) (k : κ) (v : ν)
    (h : mapGet m k = none) : mapSet m k v = m ++ [(k, v)] := by
  induction m with
  | nil => simp [mapSet]
  | cons kv rest ih =>
    obtain ⟨k₀, v₀⟩ := kv
    by_cases hk : k = k₀
    · simp [mapGet, hk] at h
    · simp only [mapGet, hk, if_false] at h
      simp [mapSet, hk, ih h]

theorem mem_keys_mapSet {κ ν : Type} [DecidableEq κ] {m : List (κ × ν)} {k k' : κ} {v : ν}
    (h : k' ∈ (mapSet m k v).map fun kv => kv.1) :
    k' = k ∨ k' ∈ m.map fun kv => kv.1 := by
  obtain ⟨kv, hkv, rfl⟩ := List.mem_map.1 h
  rcases mem_mapSet hkv with rfl | h'
  · exact Or.inl rfl
  · exact Or.inr (List.mem_map.2 ⟨kv, h', rfl⟩)

/-- `mapSet` preserves key uniqueness. -/
theorem keys_mapSet_nodup {κ ν : Type} [DecidableEq κ] (m : List (κ × ν)) (k : κ) (v : ν)
    (h : (m.map fun kv => kv.1).Nodup) : ((mapSet m k v).map fun kv => kv.1).Nodup := by
  induction m with
  | nil => simp [mapSet]
  | cons kv rest ih =>
    obtain ⟨k₀, v₀⟩ := kv
    rw [List.map_cons, List.nodup_cons] at h
    by_cases hk : k = k₀
    · subst hk
      simpa [mapSet] using h
    · rw [mapSet, if_neg hk, List.map_cons, List.nodup_cons]
      refine ⟨?_, ih h.2⟩
      intro hmem
      rcases mem_keys_mapSet hmem with h' | h'
      · exact hk h'.symm
      · exact h.1 h'

/-- With unique keys, membership determines the lookup. -/
theorem mapGet_of_mem_nodup {κ ν : Type} [DecidableEq κ] {m : List (κ × ν)} {k : κ} {v : ν}
    (hnodup : (m.map fun kv => kv.1).Nodup) (h : (k, v) ∈ m) : mapGet m k = some v := by
  induction m with
  | nil => cases h
  | cons kv rest ih =>
    obtain ⟨k₀, v₀⟩ := kv
    rw [List.map_cons, List.nodup_cons] at hnodup
    rcases List.mem_cons.1 h with heq | h'
    · rw [Prod.mk.injEq] at heq
      simp [mapGet, heq.1, heq.2]
    · have hk : k ≠ k₀ := by
        rintro rfl
        exact hnodup.1 (List.mem_map.2 ⟨(k, v), h', rfl⟩)
      simp only [mapGet, hk, if_false]
      exact ih hnodup.2 h'

namespace Agg

/-- The nested per-exchange/per-day accumulation is the fold of `addDay` over
the flattened (exchange, day) stream. -/
theorem combineVolumes_eq_flat (results : List ExchangeSeries) :
    combineVolumes results =
      (results.flatMap fun s => s.dailyVolume.map fun day => (s.exchange, day)).foldl
        (fun m t => addDay m t.1 t.2) [] := by
  suffices h : ∀ (rs : List ExchangeSeries) (m₀ : List (ℤ × DateAcc)),
      rs.foldl (fun volumeByDate exchangeData =>
        exchangeData.dailyVolume.foldl
          (fun m day => addDay m exchangeData.exchange day) volumeByDate) m₀ =
      (rs.flatMap fun s => s.dailyVolume.map fun day => (s.exchange, day)).foldl
        (fun m t => addDay m t.1 t.2) m₀ by
    exact h results []
  intro rs
  induction rs with
  | nil => intro m₀; rfl
  | cons s rest ih =>
    intro m₀
    rw [List.foldl_cons, List.flatMap_cons, List.foldl_append, ih, List.foldl_map]

/-- The one-key accumulation step of `addDay`, seen per date. -/
theorem mapGet_foldl_addDay (ts : List (String × (ℤ × ℚ))) (m₀ : List (ℤ × DateAcc)) (d : ℤ) :
    mapGet (ts.foldl (fun m t => addDay m t.1 t.2) m₀) d =
      (ts.filter fun t => decide (t.2.1 = d)).foldl dateStep (mapGet m₀ d) := by
  induction ts generalizing m₀ with
  | nil => simp
  | cons t rest ih =>
    obtain ⟨ex, dt, v⟩ := t
    by_cases hdt : dt = d
    · subst hdt
      rw [List.foldl_cons, ih, List.filter_cons, if_pos (by simp), List.foldl_cons]
      congr 1
      rw [addDay]
      dsimp only
      rw [mapGet_mapSet_self]
      rfl
    · rw [List.foldl_cons, ih, List.filter_cons, if_neg (by simp [hdt])]
      congr 1
      rw [addDay]
      dsimp only
      exact mapGet_mapSet_ne _ _ _ _ fun heq => hdt heq.symm

/-- Folding the per-date step over a stream of distinct, fresh exchanges
accumulates the total volume and appends the by-exchange pairs in order. -/
theorem foldl_dateStep (us : List (String × (ℤ × ℚ))) (v₀ : ℚ) (b₀ : List (String × ℚ))
    (hfresh : ∀ u ∈ us, mapGet b₀ u.1 = none)
    (hnodup : (us.map fun u => u.1).Nodup) :
    us.foldl dateStep (some (⟨v₀, b₀⟩ : DateAcc)) =
      some (⟨v₀ + (us.map fun u => u.2.2).sum, b₀ ++ us.map fun u => (u.1, u.2.2)⟩ : DateAcc) := by
  induction us generalizing v₀ b₀ with
  | nil => simp
  | cons u rest ih =>
    obtain ⟨ex, dt, v⟩ := u
    simp only [List.map_cons, List.nodup_cons] at hnodup
    have hfreshu : mapGet b₀ ex = none := hfresh _ (List.mem_cons_self _ _)
    have hfresh' : ∀ u' ∈ rest, mapGet (b₀ ++ [(ex, v)]) u'.1 = none := by
      intro u' hu'
      rw [mapGet_append_none _ _ _ (hfresh _ (List.mem_cons_of_mem _ hu'))]
      have hne : u'.1 ≠ ex := fun heq => hnodup.1 (heq ▸ List.mem_map.2 ⟨u', hu', rfl⟩)
      simp [mapGet, hne]
    have hstep : dateStep (some (⟨v₀, b₀⟩ : DateAcc)) (ex, dt, v) =
        some (⟨v₀ + v, b₀ ++ [(ex, v)]⟩ : DateAcc) := by
      simp only [dateStep, Option.getD_some]
      rw [mapSet_eq_append b₀ ex v hfreshu]
    rw [List.foldl_cons, hstep, ih (v₀ + v) (b₀ ++ [(ex, v)]) hfresh' hnodup.2]
    simp [add_assoc]

end Agg

namespace Agg

/-- The `addDay` fold keeps the date keys unique. -/
theorem keys_nodup_foldl_addDay (ts : List (String × (ℤ × ℚ))) (m₀ : List (ℤ × DateAcc))
    (h₀ : (m₀.map fun kv => kv.1).Nodup) :
    ((ts.foldl (fun m t => addDay m t.1 t.2) m₀).map fun kv => kv.1).Nodup := by
  induction ts generalizing m₀ with
  | nil => simpa using h₀
  | cons t rest ih =>
    rw [List.foldl_cons]
    apply ih
    rw [addDay]
    exact keys_mapSet_nodup _ _ _ h₀

end Agg

/-- In a duplicate-free list of pairs sharing one common second component,
the first components are pairwise distinct. -/
theorem nodup_fst_of_const_snd {α β : Type} (l : List (α × β)) (b : β)
    (hall : ∀ x ∈ l, x.2 = b) (h : l.Nodup) : (l.map fun x => x.1).Nodup := by
  induction l with
  | nil => simp
  | cons x t ih =>
    rw [List.nodup_cons] at h
    rw [List.map_cons, List.nodup_cons]
    refine ⟨?_, ih (fun y hy => hall y (List.mem_cons_of_mem _ hy)) h.2⟩
    intro hmem
    obtain ⟨y, hy, hxy⟩ := List.mem_map.1 hmem
    have hx2 : x.2 = b := hall x (List.mem_cons_self _ _)
    have hy2 : y.2 = b := hall y (List.mem_cons_of_mem _ hy)
    have hyx : y = x := Prod.ext hxy (hy2.trans hx2.symm)
    exact h.1 (hyx ▸ hy)

namespace Agg

/-- With distinct exchange names and per-series distinct dates, the
(exchange, date) pairs of the flattened stream are pairwise distinct. -/
theorem flat_pairs_nodup (results : List ExchangeSeries)
    (hnames : (results.map fun s => s.exchange).Nodup)
    (hdates : ∀ s ∈ results, (s.dailyVolume.map fun day => day.1).Nodup) :
    ((results.flatMap fun s => s.dailyVolume.map fun day => (s.exchange, day)).map
      fun t => (t.1, t.2.1)).Nodup := by
  have hswap : ((results.flatMap fun s => s.dailyVolume.map fun day => (s.exchange, day)).map
      fun t => (t.1, t.2.1)) =
      results.flatMap fun s => s.dailyVolume.map fun day => ((s.exchange, day.1) : String × ℤ) := by
    simp only [List.map_flatMap, List.map_map]
    rfl
  rw [hswap]
  clear hswap
  induction results with
  | nil => simp
  | cons s rest ih =>
    rw [List.map_cons, List.nodup_cons] at hnames
    rw [List.flatMap_cons, List.nodup_append]
    refine ⟨?_, ih hnames.2 (fun s' hs' => hdates s' (List.mem_cons_of_mem _ hs')), ?_⟩
    · have heq2 : (s.dailyVolume.map fun day => ((s.exchange, day.1) : String × ℤ)) =
          (s.dailyVolume.map fun day => day.1).map fun d => (s.exchange, d) := by
        rw [List.map_map]
        rfl
      rw [heq2]
      exact (hdates s (List.mem_cons_self _ _)).map
        (fun a b hab => by simpa using hab)
    · intro x hx hx'
      obtain ⟨day, _, rfl⟩ := List.mem_map.1 hx
      obtain ⟨s', hs', hx's⟩ := List.mem_flatMap.1 hx'
      obtain ⟨day', _, hday'⟩ := List.mem_map.1 hx's
      have hexeq : s.exchange = s'.exchange := by
        have := congrArg Prod.fst hday'
        simpa using this.symm
      exact hnames.1 (hexeq ▸ List.mem_map.2 ⟨s', hs', rfl⟩)

end Agg

namespace Agg

/-- C1 (amended): provided each exchange appears at most once in the input
(one `ExchangeSeries` per exchange) and each exchange's daily series contains
at most one entry per date, every output point of the aggregator satisfies
the invariant: its `volume` equals the sum of its `byExchange` values, and
every `byExchange` key belongs to an exchange that actually reported that
date (exchanges with no entry on the date contribute 0 and do not appear as
keys). -/
theorem aggregated_volume_invariant (results : List ExchangeSeries)
    (hnames : (results.map fun s => s.exchange).Nodup)
    (hdates : ∀ s ∈ results, (s.dailyVolume.map fun day => day.1).Nodup) :
    ∀ point ∈ aggregatedDailyVolume results,
      point.volume = (point.byExchange.map fun kv => kv.2).sum ∧
      ∀ kv ∈ point.byExchange, ∃ s ∈ results, s.exchange = kv.1 ∧
        (point.date, kv.2) ∈ s.dailyVolume := by
  intro point hpoint
  have hpoint' : point ∈ (combineVolumes results).map fun kv =>
      (⟨kv.1, kv.2.volume, kv.2.byExchange⟩ : DailyVolumePoint) :=
    (List.perm_insertionSort _ _).mem_iff.1 hpoint
  obtain ⟨kv, hkv, rfl⟩ := List.mem_map.1 hpoint'
  obtain ⟨d, acc⟩ := kv
  have hkeys : ((combineVolumes results).map fun kv => kv.1).Nodup := by
    rw [combineVolumes_eq_flat]
    exact keys_nodup_foldl_addDay _ _ (by simp)
  have hget : mapGet (combineVolumes results) d = some acc := mapGet_of_mem_nodup hkeys hkv
  rw [combineVolumes_eq_flat, mapGet_foldl_addDay] at hget
  have hpairs := flat_pairs_nodup results hnames hdates
  set ts := results.flatMap fun s => s.dailyVolume.map fun day => (s.exchange, day) with hts
  have husnodup : (((ts.filter fun t => decide (t.2.1 = d)).map fun u => u.1)).Nodup := by
    have hsub : ((ts.filter fun t => decide (t.2.1 = d)).map fun t => (t.1, t.2.1)).Sublist
        (ts.map fun t => (t.1, t.2.1)) :=
      List.Sublist.map _ (List.filter_sublist ts)
    have husp := hsub.nodup hpairs
    have hall : ∀ x ∈ (ts.filter fun t => decide (t.2.1 = d)).map fun t => (t.1, t.2.1),
        x.2 = d := by
      intro x hx
      obtain ⟨t, ht, rfl⟩ := List.mem_map.1 hx
      simpa using List.of_mem_filter ht
    have hres := nodup_fst_of_const_snd _ d hall husp
    rw [List.map_map] at hres
    exact hres
  cases hus0 : ts.filter fun t => decide (t.2.1 = d) with
  | nil =>
    rw [hus0] at hget
    simp [mapGet] at hget
  | cons u us' =>
    rw [hus0] at hget husnodup
    simp only [List.map_cons, List.nodup_cons] at husnodup
    rw [List.foldl_cons] at hget
    have hinit : dateStep (mapGet ([] : List (ℤ × DateAcc)) d) u =
        some (⟨u.2.2, [(u.1, u.2.2)]⟩ : DateAcc) := by
      simp [dateStep, mapGet, mapSet]
    rw [hinit] at hget
    have hfresh : ∀ u' ∈ us', mapGet [(u.1, u.2.2)] u'.1 = none := by
      intro u' hu'
      have hne : u'.1 ≠ u.1 := fun heq => husnodup.1 (heq ▸ List.mem_map.2 ⟨u', hu', rfl⟩)
      simp [mapGet, hne]
    rw [foldl_dateStep us' u.2.2 [(u.1, u.2.2)] hfresh husnodup.2] at hget
    have hacc : acc = ⟨u.2.2 + (us'.map fun x => x.2.2).sum,
        [(u.1, u.2.2)] ++ us'.map fun x => (x.1, x.2.2)⟩ := (Option.some.inj hget).symm
    constructor
    · show acc.volume = (acc.byExchange.map fun kv => kv.2).sum
      rw [hacc]
      simp [List.map_map]
      rfl
    · intro kv' hkv'
      have hkv'2 : kv' ∈ acc.byExchange := hkv'
      rw [hacc] at hkv'2
      dsimp only at hkv'2
      have hkv'' : ∃ t ∈ u :: us', kv' = (t.1, t.2.2) := by
        rcases List.mem_append.1 hkv'2 with h | h
        · exact ⟨u, List.mem_cons_self _ _, by simpa using h⟩
        · obtain ⟨t, ht, rfl⟩ := List.mem_map.1 h
          exact ⟨t, List.mem_cons_of_mem _ ht, rfl⟩
      obtain ⟨t, htmem, rfl⟩ := hkv''
      have htus : t ∈ ts.filter fun t => decide (t.2.1 = d) := hus0 ▸ htmem
      rw [List.mem_filter] at htus
      have htd : t.2.1 = d := by simpa using htus.2
      have htts : t ∈ ts := htus.1
      rw [hts] at htts
      obtain ⟨s, hs, hts'⟩ := List.mem_flatMap.1 htts
      obtain ⟨day, hday, htday⟩ := List.mem_map.1 hts'
      refine ⟨s, hs, ?_, ?_⟩
      · simpa using congrArg Prod.fst htday
      · show ((⟨d, acc.volume, acc.byExchange⟩ : DailyVolumePoint).date, (t.1, t.2.2).2) ∈
          s.dailyVolume
        have hday2 : day = (d, t.2.2) := by
          have h2 : day = t.2 := by simpa using congrArg Prod.snd htday
          rw [h2, ← htd]
        rw [show (⟨d, acc.volume, acc.byExchange⟩ : DailyVolumePoint).date = d from rfl]
        exact hday2 ▸ hday

end Agg

/-- C1 counterexample: the invariant fails as universally stated.  If one
exchange reports the same date twice, `volume` accumulates both
contributions while the `byExchange` entry is overwritten by the last one:
on the single series `{exchange: "a", dailyVolume: [{date 0, vol 10},
{date 0, vol 20}]}` the output point has `volume = 30` but
`byExchange = {a: 20}`, whose values sum to 20 ≠ 30. -/
theorem aggregated_volume_invariant_cex :
    Agg.aggregatedDailyVolume [⟨"a", [], [(0, 10), (0, 20)]⟩] =
        [⟨0, 30, [("a", 20)]⟩] ∧
      ((((⟨0, 30, [("a", 20)]⟩ : Agg.DailyVolumePoint)).byExchange.map fun kv => kv.2).sum = 20) ∧
      (30 : ℚ) ≠ 20 := by
  refine ⟨?_, by norm_num, by norm_num⟩
  simp [Agg.aggregatedDailyVolume, Agg.combineVolumes, Agg.addDay, mapSet, mapGet,
    List.insertionSort, List.orderedInsert]
  norm_num

/-- C1 witness: two well-formed series (distinct exchanges, distinct dates
within each) — the hypotheses hold and the invariant follows. -/
theorem aggregated_volume_invariant_witness :
    (([⟨"a", [], [(0, 10)]⟩, ⟨"b", [], [(0, 5), (1, 7)]⟩] : List Agg.ExchangeSeries).map
        fun s => s.exchange).Nodup ∧
      (∀ s ∈ ([⟨"a", [], [(0, 10)]⟩, ⟨"b", [], [(0, 5), (1, 7)]⟩] : List Agg.ExchangeSeries),
        (s.dailyVolume.map fun day => day.1).Nodup) ∧
      ∀ point ∈ Agg.aggregatedDailyVolume
          [⟨"a", [], [(0, 10)]⟩, ⟨"b", [], [(0, 5), (1, 7)]⟩],
        point.volume = (point.byExchange.map fun kv => kv.2).sum ∧
        ∀ kv ∈ point.byExchange,
          ∃ s ∈ ([⟨"a", [], [(0, 10)]⟩, ⟨"b", [], [(0, 5), (1, 7)]⟩] : List Agg.ExchangeSeries),
            s.exchange = kv.1 ∧ (point.date, kv.2) ∈ s.dailyVolume := by
  refine ⟨by decide, by decide, ?_⟩
  exact Agg.aggregated_volume_invariant _ (by decide) (by decide)
